import Mathlib

/-!
Verification development for the gosloppy source-to-source instrumentation
toolkit.  The Go sources are shallowly embedded below: pure functions become
Lean functions, the mutable scope tree of the walker becomes an explicit
store of scope records, and external collaborators (the `go/build` package
resolver, `flag` parsing, `filepath.Rel`/`Join`) are parameters of the
embedded functions.  After the definitions come the theorems settling the
specification claims C1 .. C10.
-/

/-! ## Patch engine: `patch.Patch` positions and `instrument.appendNoContradict` -/

/-- A text patch addressed by offsets into the original source, as produced by
`patch.Insert` (a zero-length range) and `patch.Replace` (the range of a
node).  `startPos`/`endPos` model `Patch.StartPos()`/`Patch.EndPos()`. -/
structure GoPatch where
  startPos : Nat
  endPos : Nat
  text : String
deriving DecidableEq

/-- `patch.Insert(pos, txt)`: a pure insertion at `pos`. -/
def patchInsert (pos : Nat) (txt : String) : GoPatch := ⟨pos, pos, txt⟩

/-- The test `appendNoContradict` applies to each accepted patch `p` before
accepting `toadd` (instrument.go lines 262-263, verbatim condition). -/
def contradicts (toadd p : GoPatch) : Bool :=
  (toadd.endPos ≤ p.endPos && toadd.endPos ≥ p.startPos) ||
  (toadd.startPos ≤ p.endPos && toadd.startPos ≥ p.startPos)

/-- `instrument.appendNoContradict`: return `patches` unchanged as soon as one
accepted patch triggers the test, otherwise append `toadd`. -/
def appendNoContradict (patches : List GoPatch) (toadd : GoPatch) : List GoPatch :=
  if patches.any (fun p => contradicts toadd p) then patches else patches ++ [toadd]

/-- Two patches overlap when their half-open offset ranges `[startPos, endPos)`
intersect; a pure insertion `[p, p)` overlaps a range that strictly
surrounds `p`.  (Node ranges use `End()`, the offset one past the node.) -/
def Overlaps (p q : GoPatch) : Prop := p.startPos < q.endPos ∧ q.startPos < p.endPos

/-! ## Import relevance: `Instrumentable.relevantImport` -/

/-- `strings.HasPrefix` (and `filepath.HasPrefix`, which on non-Windows
platforms is the same plain string-prefix test), on the character lists of
the strings. -/
def hasPre (s pre : String) : Bool := pre.toList.isPrefixOf s.toList

/-- `build.IsLocalImport`: a syntactically file-relative import path. -/
def isLocalImport (p : String) : Bool :=
  p == "." || p == ".." || hasPre p "./" || hasPre p "../"

/-- The two fields of `Instrumentable` that `relevantImport` consults:
the configured base package and `pkg.ImportPath`. -/
structure InstrCfg where
  basepkg : String
  importPath : String
deriving DecidableEq

/-- `Instrumentable.IsInGopath`: `i.pkg.ImportPath != "."`. -/
def isInGopath (c : InstrCfg) : Bool := c.importPath != "."

/-- `Instrumentable.relevantImport` (instrument.go lines 116-123).
`filepath.HasPrefix(p, pre)` is plain `strings.HasPrefix` on non-Windows
platforms, i.e. `String.startsWith`. -/
def relevantImport (c : InstrCfg) (imp : String) : Bool :=
  if c.basepkg == "*" then true
  else if isInGopath c || c.basepkg != "" then
    hasPre imp c.basepkg || hasPre c.basepkg imp
  else isLocalImport imp

/-- The relevance predicate as the specification words it (for claim C3):
wildcard matches everything; otherwise an explicit (nonempty) base path
matches the prefix-or-suffix relation; otherwise only local imports match.
This definition follows the spec sentence, to be compared with
`relevantImport`, which is translated from the source. -/
def relevantImportSpec (c : InstrCfg) (imp : String) : Bool :=
  if c.basepkg == "*" then true
  else if c.basepkg != "" then
    hasPre imp c.basepkg || hasPre c.basepkg imp
  else isLocalImport imp

/-! ## Temporary-name generator: `ShortError.tempVar` -/

/-- `ShortError.tempVar` (shorterror.go lines 32-41).  `isBound name` models
`Lookup(scope, name) != nil`.  The source loops `for ; v.tmpvar < 10*1000;
v.tmpvar++`, returns `stem + itoa(counter)` on the first free name (bumping
the counter once more), and panics when the bound is exhausted; the panic is
modelled as `none`.  The result carries the name and the counter value the
visitor keeps. -/
def tempVar (isBound : String → Bool) (stem : String) (tmpvar : Nat) :
    Option (String × Nat) :=
  if tmpvar < 10 * 1000 then
    if isBound (stem ++ toString tmpvar) then tempVar isBound stem (tmpvar + 1)
    else some (stem ++ toString tmpvar, tmpvar + 1)
  else none
termination_by 10 * 1000 - tmpvar
decreasing_by omega

/-! ## Package-closure instrumenter: `Instrumentable.instrumentTo` -/

/-- The fields of `build.Package` that drive the closure traversal:
the resolved import path and the three import lists. -/
structure IPkg where
  importPath : String
  imports : List String
  testImports : List String
  xtestImports : List String
deriving DecidableEq

/-- Outcome of a traversal: the updated `processed` map (as a list of import
paths), and the order in which packages were instrumented (one entry per
`instrumentPatchable` group); `errImport` models a failing `doimport`
(unresolvable import, aborting the run), and `outOfFuel` is the model
artifact for exceeding the recursion budget. -/
inductive IResult where
  | ok (processed : List String) (order : List String)
  | errImport (imp : String)
  | outOfFuel
deriving DecidableEq

/-- Package resolution (`Instrumentable.doimport`, i.e. `build.Import` /
`build.ImportDir`), abstracted to a finite table keyed by the import string. -/
def lookupEnv (env : List (String × IPkg)) (imp : String) : Option IPkg :=
  (env.find? (fun p => p.1 == imp)).map (fun p => p.2)

mutual
/-- `Instrumentable.instrumentTo` (instrument.go lines 163-209): return at once
if the package's import path is already in `processed`; otherwise mark it
processed, recurse into every relevant import, and finally instrument the
package's own files (emitted as one entry of the order list).  `fuel` bounds
the recursion depth (the Go original relies on the call stack). -/
def instrumentToF (env : List (String × IPkg)) (basepkg : String) (fuel : Nat)
    (processed : List String) (pkg : IPkg) : IResult :=
  if processed.contains pkg.importPath then .ok processed []
  else
    match fuel with
    | 0 => .outOfFuel
    | fuel + 1 =>
      match goImports env basepkg fuel (pkg.importPath :: processed) pkg
          (pkg.imports ++ pkg.testImports ++ pkg.xtestImports) with
      | .ok p ord => .ok p (ord ++ [pkg.importPath])
      | r => r
termination_by (fuel, 0)

/-- The loop over `i.pkg.Imports`, `i.pkg.TestImports`, `i.pkg.XTestImports`
inside `instrumentTo`, threading the shared `processed` map. -/
def goImports (env : List (String × IPkg)) (basepkg : String) (fuel : Nat)
    (processed : List String) (cur : IPkg) (imps : List String) : IResult :=
  match imps with
  | [] => .ok processed []
  | imp :: rest =>
    if relevantImport ⟨basepkg, cur.importPath⟩ imp then
      match lookupEnv env imp with
      | none => .errImport imp
      | some q =>
        match instrumentToF env basepkg fuel processed q with
        | .ok p ord =>
          match goImports env basepkg fuel p cur rest with
          | .ok p2 ord2 => .ok p2 (ord ++ ord2)
          | r => r
        | r => r
    else goImports env basepkg fuel processed cur rest
termination_by (fuel, imps.length + 1)
end

/-- The number of distinct package import paths in the resolution table that
are not yet processed: the measure that bounds the traversal depth. -/
def unprocCount (env : List (String × IPkg)) (processed : List String) : Nat :=
  (((env.map (fun p => p.2.importPath)).dedup).filter
    (fun x => !processed.contains x)).length

/-- The number of distinct package import paths in the resolution table. -/
def envPathCount (env : List (String × IPkg)) : Nat :=
  ((env.map (fun p => p.2.importPath)).dedup).length

/-- `Instrumentable.InstrumentTo` (instrument.go lines 159-161): start the
traversal with an empty `processed` map.  The output directory and the
per-file patching callback are rendering I/O, outside the model; the fuel is
chosen large enough for the whole package universe. -/
def InstrumentTo (env : List (String × IPkg)) (basepkg : String) (pkg : IPkg) : IResult :=
  instrumentToF env basepkg (envPathCount env + 2) [] pkg

/-- The instrumentation order of a traversal outcome (empty on failure). -/
def ordOf : IResult → List String
  | .ok _ o => o
  | _ => []

/-- A concrete diamond-and-cycle package universe: `a` imports `b` and `c`,
both import `d`, and `d` imports `a` again. -/
def pkgA : IPkg := ⟨"a", ["b", "c"], [], []⟩

/-- Package `b` of the concrete universe. -/
def pkgB : IPkg := ⟨"b", ["d"], [], []⟩

/-- Package `c` of the concrete universe. -/
def pkgC : IPkg := ⟨"c", ["d"], [], []⟩

/-- Package `d` of the concrete universe, closing the import cycle. -/
def pkgD : IPkg := ⟨"d", ["a"], [], []⟩

/-- Resolution table for the concrete universe. -/
def env0 : List (String × IPkg) := [("a", pkgA), ("b", pkgB), ("c", pkgC), ("d", pkgD)]

/-! ## Toolchain command model: `buildcmd.go` -/

/-- `strings.HasSuffix`, on the character lists of the strings. -/
def hasSuf (s suf : String) : Bool := suf.toList.isSuffixOf s.toList

/-- `GoCmd` (buildcmd.go lines 19-26).  `Flags` is the map from flag name to
value, modelled as an association list. -/
structure GoCmd where
  workDir : String
  executable : String
  command : String
  buildFlags : List (String × String)
  params : List String
  extraFlags : List String
deriving DecidableEq

/-- Reading a Go map: a missing key yields the zero value `""`
(`cmd.BuildFlags["o"]`). -/
def flagsGet (flags : List (String × String)) (k : String) : String :=
  ((flags.find? (fun pr => pr.1 == k)).map (fun pr => pr.2)).getD ""

/-- Writing a Go map entry (`buildflags["o"] = ...`); `Flags.Clone` is value
copying, which the Lean embedding gets for free. -/
def flagsSet (flags : List (String × String)) (k v : String) : List (String × String) :=
  if flags.any (fun pr => pr.1 == k) then
    flags.map (fun pr => if pr.1 == k then (k, v) else pr)
  else flags ++ [(k, v)]

/-- The two fields of `build.Package` that `getOutputFileName` reads. -/
structure BuildPkg where
  name : String
  dir : String
deriving DecidableEq

/-- The external collaborators of `buildcmd.go`: the `go/build` resolvers and
the `path/filepath` operations, all outside the embedded core. -/
structure BuildEnv where
  importDir : String → Option BuildPkg
  importPkg : String → Option BuildPkg
  abs : String → Option String
  rel : String → String → Option String
  join : String → String → String

/-- `filepath.Base` on non-Windows: strip trailing separators, then keep the
part after the last separator; `""` gives `"."` and an all-separator path
gives `"/"`. -/
def basename (p : String) : String :=
  if p == "" then "."
  else
    let cs := p.toList.reverse.dropWhile (fun c => c == '/')
    if cs.isEmpty then "/"
    else String.mk ((cs.takeWhile (fun c => c != '/')).reverse)

/-- `GoCmd.getOutputFileName` (buildcmd.go lines 126-148): at most one target
package; resolve the working directory when no package argument is given,
else the (single) package argument; demand a `main` package; derive the name
from the base name of the package directory made absolute. -/
def getOutputFileName (env : BuildEnv) (cmd : GoCmd) : Except String String :=
  if cmd.params.length > 1 then .error "No support for more than a single package"
  else
    match (match cmd.params with
           | [] => env.importDir cmd.workDir
           | p0 :: _ => env.importPkg p0) with
    | none => .error "import error"
    | some pkg =>
      if pkg.name != "main" then
        .error "gosloppy should be used for testing packages or producing executables, not for building packages"
      else
        match env.abs pkg.dir with
        | none => .error "abs error"
        | some d => .ok (basename d)

/-- `GoCmd.Retarget` (buildcmd.go lines 152-174): recompute the relative path
from the new directory back to the original working directory; for `build`,
fill in the output flag — deriving the default output name when none was
given — as that relative path joined with the output name. -/
def Retarget (env : BuildEnv) (cmd : GoCmd) (newdir : String) : Except String GoCmd :=
  match env.rel newdir cmd.workDir with
  | none => .error "rel error"
  | some r =>
    if cmd.command == "run" || cmd.command == "test" then
      .ok ⟨newdir, cmd.executable, cmd.command, cmd.buildFlags, cmd.params, cmd.extraFlags⟩
    else if cmd.command == "build" then
      let v := flagsGet cmd.buildFlags "o"
      if v == "" then
        match getOutputFileName env cmd with
        | .error e => .error e
        | .ok name =>
          .ok ⟨newdir, cmd.executable, cmd.command,
            flagsSet cmd.buildFlags "o" (env.join r name), cmd.params, cmd.extraFlags⟩
      else
        .ok ⟨newdir, cmd.executable, cmd.command,
          flagsSet cmd.buildFlags "o" (env.join r v), cmd.params, cmd.extraFlags⟩
    else .error "No support for commands other than build test or run"

/-- The outcome of `flags.Parse(args[2:])`: the set flags and the remaining
positional arguments.  Flag parsing is an external collaborator. -/
structure ParseOutcome where
  flags : List (String × String)
  args : List String

/-- The `run` arm of the positional-argument split in `NewGoCmdWithFlags`
(buildcmd.go lines 92-99): collect the leading `.go` arguments as params; at
the first other argument take the tail of the package-global `flag.Args()`
(the source reads the global `flag` package there, not the local flag set)
as extra flags. -/
def runSplitAux (idx : Nat) (rem globalArgs acc : List String) :
    List String × List String :=
  match rem with
  | [] => (acc, [])
  | p :: tl =>
    if !hasSuf p ".go" then (acc, globalArgs.drop idx)
    else runSplitAux (idx + 1) tl globalArgs (acc ++ [p])

/-- Entry point of the `run` split. -/
def runSplit (args globalArgs : List String) : List String × List String :=
  runSplitAux 0 args globalArgs []

/-- The `test` arm of the positional-argument split (buildcmd.go lines
100-107): collect leading non-dash arguments; at the first dash argument
take the tail of the package-global `flag.Args()`. -/
def testSplitAux (idx : Nat) (rem globalArgs acc : List String) :
    List String × List String :=
  match rem with
  | [] => (acc, [])
  | p :: tl =>
    if hasPre p "-" then (acc, globalArgs.drop idx)
    else testSplitAux (idx + 1) tl globalArgs (acc ++ [p])

/-- Entry point of the `test` split. -/
def testSplit (args globalArgs : List String) : List String × List String :=
  testSplitAux 0 args globalArgs []

/-- `NewGoCmdWithFlags` (buildcmd.go lines 61-110).  Flag registration is
external `flag` state; `parse` models `flags.Parse(args[2:])` (`none` for a
parse error).  The second switch deciding params/extra writes `case "buid"`
— a misspelling of `"build"` — so the verb `"build"` matches no case there
and keeps `params`/`extra` empty. -/
def newGoCmdWithFlags (parse : List String → Option ParseOutcome)
    (globalArgs : List String) (workdir : String) (args : List String) :
    Except String GoCmd :=
  if args.length < 2 then
    .error "GoCmd must have at least two arguments (e.g. go build)"
  else
    let verb := args.getD 1 ""
    if verb == "run" || verb == "build" || verb == "test" then
      match parse (args.drop 2) with
      | none => .error "flag parse error"
      | some po =>
        let pe :=
          if verb == "buid" then (po.args, ([] : List String))
          else if verb == "run" then runSplit po.args globalArgs
          else if verb == "test" then testSplit po.args globalArgs
          else ([], [])
        .ok ⟨workdir, args.getD 0 "", verb, po.flags, pe.1, pe.2⟩
    else .error "Currently only build run and test commands supported"

/-- A concrete collaborator environment for the build-command theorems. -/
def buildEnvEx : BuildEnv :=
  { importDir := fun s => if s == "/w/app" then some ⟨"main", "/w/app"⟩ else none
    importPkg := fun _ => none
    abs := fun s => some s
    rel := fun a b => if a == "/tmp/out" && b == "/w/app" then some "../../w/app" else none
    join := fun a b => a ++ "/" ++ b }

/-- A concrete `go build` command in the example environment. -/
def cmdBuildEx : GoCmd := ⟨"/w/app", "go", "build", [], [], []⟩

/-- A concrete `go build` command naming two target packages. -/
def cmdBuildTwo : GoCmd := ⟨"/w/app", "go", "build", [], ["p1", "p2"], []⟩

/-- A parse stub returning one leftover positional argument. -/
def parseEx : List String → Option ParseOutcome := fun rest => some ⟨[], rest⟩

/-- The argument vector `go build pkg1`. -/
def argsBuildEx : List String := ["go", "build", "pkg1"]

/-! ## Scope walker: `scopewalker.go` -/

/-- `ast.ObjKind`: the kind of a declared object (`Fun` is spelled `fn`,
`Var` is `var`). -/
inductive ObjKind where
  | bad
  | pkg
  | con
  | typ
  | var
  | fn
  | lbl
deriving DecidableEq

/-- `ast.Object`: a named declared entity; `id` stands for the pointer
identity of the object the parser allocated. -/
structure Obj where
  id : Nat
  name : String
  kind : ObjKind
deriving DecidableEq

/-- One `ast.Scope`: the index of its enclosing scope in the store, and the
objects inserted so far. -/
structure ScopeRec where
  outer : Option Nat
  objects : List Obj
deriving DecidableEq

/-- The scope store: `ast.Scope` pointers become indices into this list. -/
abbrev Store := List ScopeRec

/-- `ast.NewScope(outer)`: allocate a fresh scope chained on `out`. -/
def pushScope (st : Store) (out : Nat) : Store := st ++ [⟨some out, []⟩]

/-- `ast.Scope.Insert`: the first object under a name wins. -/
def scopeInsert (sr : ScopeRec) (o : Obj) : ScopeRec :=
  if sr.objects.any (fun p => p.name == o.name) then sr
  else { sr with objects := sr.objects ++ [o] }

/-- Apply `Scope.Insert` to the scope at index `i` of the store. -/
def storeInsert (st : Store) (i : Nat) (o : Obj) : Store :=
  match st.get? i with
  | some sr => st.set i (scopeInsert sr o)
  | none => st

/-- `insertToScope` (scopewalker.go lines 281-289): never insert the blank
identifier, never insert a function named `init`. -/
def insertToScope (st : Store) (i : Nat) (o : Obj) : Store :=
  if o.name == "_" then st
  else if o.kind == ObjKind.fn && o.name == "init" then st
  else storeInsert st i o

mutual
/-- `ast.Expr`, restricted to the shapes `WalkExpr` distinguishes; `ebasic`
stands for any leaf expression its switch does not match (literals, type
expressions, ...), which the walker visits without descending. -/
inductive GExpr where
  | eident (o : Obj)
  | ebasic
  | eellipsis (elt : Option GExpr)
  | efunclit (params : List GField) (results : List GField) (body : GStmt)
  | ebad
  | eparen (x : GExpr)
  | esel (x : GExpr) (sel : GExpr)
  | eindex (x : GExpr) (idx : GExpr)
  | eslice (x : GExpr) (lo : Option GExpr) (hi : Option GExpr)
  | etypeassert (x : GExpr) (ty : Option GExpr)
  | ecall (fn : GExpr) (args : List GExpr)
  | estar (x : GExpr)
  | eunary (x : GExpr)
  | ebinary (x : GExpr) (y : GExpr)
  | ekv (k : GExpr) (v : GExpr)

/-- One `ast.Field`: declared names and their type expression. -/
inductive GField where
  | fmk (names : List Obj) (ty : GExpr)

/-- `ast.Stmt`, mirroring the cases of `WalkStmt`; optional children mirror
nilable fields, and `sassign`/`srange` record whether the token is `:=`. -/
inductive GStmt where
  | sexpr (x : GExpr)
  | sincdec (x : GExpr)
  | sret (results : List GExpr)
  | sassign (define : Bool) (lhs : List GExpr) (rhs : List GExpr)
  | sdecl (specs : List GSpec)
  | ssend (ch : GExpr) (val : GExpr)
  | sdefer (call : GExpr)
  | sgo (call : GExpr)
  | slabeled (s : GStmt)
  | sbranch
  | sif (init : Option GStmt) (cond : GExpr) (body : GStmt) (els : Option GStmt)
  | sfor (init : Option GStmt) (cond : Option GExpr) (post : Option GStmt) (body : GStmt)
  | srange (define : Bool) (key : GExpr) (val : Option GExpr) (body : GStmt)
  | scase (exprs : List GExpr) (body : List GStmt)
  | sswitch (init : Option GStmt) (tag : Option GExpr) (body : GStmt)
  | stypeswitch (init : Option GStmt) (assign : GStmt) (body : GStmt)
  | scomm (comm : Option GStmt) (body : List GStmt)
  | sselect (body : GStmt)
  | sblock (list : List GStmt)

/-- The `ast.Spec` shapes a `DeclStmt` carries (an import spec in a statement
panics in the source, so it has no constructor here). -/
inductive GSpec where
  | typeSpec (name : Obj) (ty : GExpr)
  | valueSpec (names : List Obj) (values : List GExpr)
end

/-- One visitor interaction: the `ScopeVisitor` methods receive the scope
(index) and the node; the store snapshot records what the visitor can
observe through the scope chain at that moment. -/
inductive Event where
  | visitExpr (snap : Store) (sc : Nat) (e : GExpr)
  | visitStmt (snap : Store) (sc : Nat) (s : GStmt)
  | exitScope (sc : Nat)

/-- Walker state: the scope store and the trace of visitor interactions. -/
structure SW where
  store : Store
  tr : List Event

/-- `exitScopes` (scopewalker.go lines 235-243) with fuel: emit `ExitScope`
for each scope from `inner` up to (excluding) `limit`.  The source panics
when it runs past a nil outer pointer; the model stops (the walker only
calls it with `limit` on the outer chain of `inner`). -/
def exitScopesAux (s : SW) (fuel : Nat) (inner limit : Nat) : SW :=
  match fuel with
  | 0 => s
  | fuel + 1 =>
    if inner == limit then s
    else
      match s.store.get? inner with
      | none => s
      | some sr =>
        let s2 : SW := { s with tr := s.tr ++ [Event.exitScope inner] }
        match sr.outer with
        | some out => exitScopesAux s2 fuel out limit
        | none => s2

/-- `exitScopes`, with enough fuel for any chain inside the store. -/
def exitScopes (s : SW) (inner limit : Nat) : SW :=
  exitScopesAux s s.store.length inner limit

/-- The LHS loop of a defining assignment (lines 105-107): each left-hand
expression is asserted to be an identifier and its object inserted (a
non-identifier would panic in the source and is skipped here). -/
def insertIdents (st : Store) (i : Nat) (lhs : List GExpr) : Store :=
  lhs.foldl (fun acc e =>
    match e with
    | .eident o => insertToScope acc i o
    | _ => acc) st

mutual
/-- `WalkExpr` (scopewalker.go lines 25-83): visit the expression, then
recurse by shape; a function literal opens a fresh scope for its parameters,
results and body, and exits it. -/
def walkExpr (s : SW) (e : GExpr) (sc : Nat) : SW :=
  let s1 : SW := { s with tr := s.tr ++ [Event.visitExpr s.store sc e] }
  match e with
  | .eellipsis elt => walkExprOpt s1 elt sc
  | .efunclit params results body =>
    let ns := s1.store.length
    let s2 : SW := { s1 with store := pushScope s1.store sc }
    let s3 := walkFields s2 params ns
    let s4 := walkFields s3 results ns
    let s5 := (walkStmt s4 body ns).1
    { s5 with tr := s5.tr ++ [Event.exitScope ns] }
  | .eparen x => walkExpr s1 x sc
  | .esel x sel => walkExpr (walkExpr s1 x sc) sel sc
  | .eindex x idx => walkExpr (walkExpr s1 x sc) idx sc
  | .eslice x lo hi =>
    let s2 := walkExpr s1 x sc
    let s3 := walkExprOpt s2 lo sc
    walkExprOpt s3 hi sc
  | .etypeassert x ty =>
    let s2 := walkExpr s1 x sc
    walkExprOpt s2 ty sc
  | .ecall fn args => walkExprList (walkExpr s1 fn sc) args sc
  | .estar x => walkExpr s1 x sc
  | .eunary x => walkExpr s1 x sc
  | .ebinary x y => walkExpr (walkExpr s1 x sc) y sc
  | .ekv k v => walkExpr (walkExpr s1 k sc) v sc
  | _ => s1

/-- Walking a nilable expression (`if e != nil { WalkExpr(v, e, scope) }`). -/
def walkExprOpt (s : SW) (o : Option GExpr) (sc : Nat) : SW :=
  match o with
  | some e => walkExpr s e sc
  | none => s

/-- Walking a nilable statement (`if st != nil { inner = WalkStmt(v, st, scope) }`). -/
def walkStmtOpt (s : SW) (o : Option GStmt) (sc : Nat) : SW × Nat :=
  match o with
  | some stm => walkStmt s stm sc
  | none => (s, sc)

/-- Walking a list of expressions in one scope. -/
def walkExprList (s : SW) (es : List GExpr) (sc : Nat) : SW :=
  match es with
  | [] => s
  | e :: tl => walkExprList (walkExpr s e sc) tl sc

/-- `WalkFields` (lines 16-23): per field, insert the declared names into
`sc`, then walk the field's type expression. -/
def walkFields (s : SW) (fs : List GField) (sc : Nat) : SW :=
  match fs with
  | [] => s
  | .fmk names ty :: tl =>
    let s2 : SW :=
      { s with store := names.foldl (fun acc o => insertToScope acc sc o) s.store }
    walkFields (walkExpr s2 ty sc) tl sc

/-- `WalkStmt` (lines 85-233): visit the statement and dispatch; the returned
scope is the one subsequent sibling statements must use (changed only by
defining assignments and declaration statements). -/
def walkStmt (s : SW) (stm : GStmt) (sc : Nat) : SW × Nat :=
  let s1 : SW := { s with tr := s.tr ++ [Event.visitStmt s.store sc stm] }
  match stm with
  | .sexpr x => (walkExpr s1 x sc, sc)
  | .sincdec x => (walkExpr s1 x sc, sc)
  | .sret results => (walkExprList s1 results sc, sc)
  | .sassign define lhs rhs =>
    if define then
      let ns := s1.store.length
      let s2 : SW := { s1 with store := pushScope s1.store sc }
      let s3 := walkExprList s2 rhs sc
      let s4 : SW := { s3 with store := insertIdents s3.store ns lhs }
      (s4, ns)
    else
      (walkExprList (walkExprList s1 lhs sc) rhs sc, sc)
  | .sdecl specs => walkSpecs s1 specs sc sc
  | .ssend ch val => (walkExpr (walkExpr s1 ch sc) val sc, sc)
  | .sdefer call => (walkExpr s1 call sc, sc)
  | .sgo call => (walkExpr s1 call sc, sc)
  | .slabeled stm1 => ((walkStmt s1 stm1 sc).1, sc)
  | .sbranch => (s1, sc)
  | .sif init cond body els =>
    let s2i := walkStmtOpt s1 init sc
    let s3 := walkExpr s2i.1 cond sc
    let s4 := (walkStmt s3 body s2i.2).1
    let s5 := (walkStmtOpt s4 els s2i.2).1
    (exitScopes s5 s2i.2 sc, sc)
  | .sfor init cond post body =>
    let s2i := walkStmtOpt s1 init sc
    let s3 := walkExprOpt s2i.1 cond sc
    let s4 := (walkStmtOpt s3 post sc).1
    let s5 := (walkStmt s4 body sc).1
    (exitScopes s5 s2i.2 sc, sc)
  | .srange define key val body =>
    if define then
      let ns := s1.store.length
      let s2 : SW := { s1 with store := pushScope s1.store sc }
      let s3 : SW := { s2 with store :=
        (match key with | .eident o => insertToScope s2.store ns o | _ => s2.store) }
      let s4 : SW := { s3 with store :=
        (match val with
         | some (.eident o) => insertToScope s3.store ns o
         | _ => s3.store) }
      let s5 := (walkStmt s4 body sc).1
      (exitScopes s5 ns sc, sc)
    else
      let s2 := walkExpr s1 key sc
      let s3 := walkExprOpt s2 val sc
      let s4 := (walkStmt s3 body sc).1
      (exitScopes s4 sc sc, sc)
  | .scase exprs body =>
    let ns := s1.store.length
    let s2 : SW := { s1 with store := pushScope s1.store sc }
    let s3 := walkExprList s2 exprs sc
    let s4i := walkStmts s3 body ns
    (exitScopes s4i.1 s4i.2 sc, sc)
  | .sswitch init tag body =>
    let s2i := walkStmtOpt s1 init sc
    let s3 := walkExprOpt s2i.1 tag sc
    let s4 := (walkStmt s3 body s2i.2).1
    (exitScopes s4 s2i.2 sc, sc)
  | .stypeswitch init assign body =>
    let s2i := walkStmtOpt s1 init sc
    let s3i := walkStmt s2i.1 assign s2i.2
    let s4 := (walkStmt s3i.1 body s3i.2).1
    (exitScopes s4 s3i.2 sc, sc)
  | .scomm comm body =>
    let s2i := walkStmtOpt s1 comm sc
    let s3i := walkStmts s2i.1 body s2i.2
    (exitScopes s3i.1 s3i.2 sc, sc)
  | .sselect body => ((walkStmt s1 body sc).1, sc)
  | .sblock list =>
    let ns := s1.store.length
    let s2 : SW := { s1 with store := pushScope s1.store sc }
    let s3i := walkStmts s2 list ns
    (exitScopes s3i.1 s3i.2 sc, sc)

/-- The statement loop of blocks, case clauses and comm clauses, threading
the current scope through `WalkStmt` return values. -/
def walkStmts (s : SW) (l : List GStmt) (inner : Nat) : SW × Nat :=
  match l with
  | [] => (s, inner)
  | stm :: tl =>
    let s2i := walkStmt s stm inner
    walkStmts s2i.1 tl s2i.2

/-- The `DeclStmt`/`GenDecl` loop (lines 116-138): every spec opens a fresh
scope chained on the previous one; names are inserted there while type and
value expressions are walked in the original statement scope `sc`. -/
def walkSpecs (s : SW) (specs : List GSpec) (ns sc : Nat) : SW × Nat :=
  match specs with
  | [] => (s, ns)
  | spec :: tl =>
    let ns2 := s.store.length
    let s2 : SW := { s with store := pushScope s.store ns }
    match spec with
    | .typeSpec name ty =>
      let s3 : SW := { s2 with store := insertToScope s2.store ns2 name }
      walkSpecs (walkExpr s3 ty sc) tl ns2 sc
    | .valueSpec names values =>
      let s3 : SW := { s2 with store :=
        (names.foldl (fun acc o => insertToScope acc ns2 o) s2.store) }
      walkSpecs (walkExprList s3 values sc) tl ns2 sc
end

/-- `ast.Decl`, restricted to the shapes `WalkFile` distinguishes. -/
inductive GDecl where
  | funcDecl (recv : Option Obj) (params : List GField) (body : Option GStmt)
  | genDecl (specs : List GSpec)

/-- Top-level `GenDecl` handling in `WalkFile` (lines 266-275): only value
specs walk their initializer values, in the file scope (their names are
already in the file scope). -/
def walkGenSpecs (s : SW) (specs : List GSpec) (fileScope : Nat) : SW :=
  match specs with
  | [] => s
  | .valueSpec _ values :: tl => walkGenSpecs (walkExprList s values fileScope) tl fileScope
  | .typeSpec _ _ :: tl => walkGenSpecs s tl fileScope

/-- The declaration loop of `WalkFile` (lines 245-277): a function
declaration opens a fresh scope on the file scope, inserts the receiver,
inserts and walks the parameters, walks the body when present, and exits the
scope. -/
def walkDecls (s : SW) (decls : List GDecl) (fileScope : Nat) : SW :=
  match decls with
  | [] => s
  | .funcDecl recv params body :: tl =>
    let ns := s.store.length
    let s2 : SW := { s with store := pushScope s.store fileScope }
    let s3 : SW := { s2 with store :=
      (match recv with | some o => insertToScope s2.store ns o | none => s2.store) }
    let s4 := walkFields s3 params ns
    let s5 := (walkStmtOpt s4 body ns).1
    walkDecls { s5 with tr := s5.tr ++ [Event.exitScope ns] } tl fileScope
  | .genDecl specs :: tl =>
    walkDecls (walkGenSpecs s specs fileScope) tl fileScope

/-- `WalkFile` (lines 245-279): walk every declaration, then exit the file
scope. -/
def walkFile (s : SW) (decls : List GDecl) (fileScope : Nat) : SW :=
  let s2 := walkDecls s decls fileScope
  { s2 with tr := s2.tr ++ [Event.exitScope fileScope] }

/-- Chain lookup with explicit fuel over the outer pointers. -/
def lookupChainF (st : Store) : Nat → Nat → String → Option Obj
  | 0, _, _ => none
  | fuel + 1, sc, n =>
    match st.get? sc with
    | none => none
    | some sr =>
      match sr.objects.find? (fun o => o.name == n) with
      | some o => some o
      | none =>
        match sr.outer with
        | some out => lookupChainF st fuel out n
        | none => none

/-- Modelled from the spec: name resolution through the chain of enclosing
scopes.  (`Lookup` lives in the dead-binding pass's source file, which is
not among the given sources; the spec describes a scope as "a mapping from
binding name to binding object ... with a reference to its enclosing
(outer) scope", with inner bindings shadowing outer ones.)  Fuel `sc + 1`
suffices on well-formed stores, whose outer indices strictly decrease. -/
def Lookup (st : Store) (sc : Nat) (n : String) : Option Obj :=
  lookupChainF st (sc + 1) sc n

/-- No scope of the store holds an object `insertToScope` refuses: nothing
blank-named, no `init` function. -/
def cleanStore (st : Store) : Bool :=
  st.all (fun sr => sr.objects.all (fun o =>
    !(o.name == "_") && !(o.kind == ObjKind.fn && o.name == "init")))

/-- Outer pointers strictly decrease: scopes only point at earlier scopes. -/
def wfStore (st : Store) : Bool :=
  (List.range st.length).all (fun i =>
    match st.get? i with
    | some sr =>
      match sr.outer with
      | some out => decide (out < i)
      | none => true
    | none => true)

/-- `scopeInsert` at the level of object lists, with the `insertToScope`
guards applied: what a fresh scope accumulates from a sequence of walker
insertions. -/
def objsInsert (obs : List Obj) (o : Obj) : List Obj :=
  if o.name == "_" then obs
  else if o.kind == ObjKind.fn && o.name == "init" then obs
  else if obs.any (fun p => p.name == o.name) then obs
  else obs ++ [o]

/-- The objects a defining assignment's left-hand identifier list puts into
the fresh scope. -/
def identObjs (obs : List Obj) (lhs : List GExpr) : List Obj :=
  lhs.foldl (fun acc e =>
    match e with
    | .eident o => objsInsert acc o
    | _ => acc) obs

/-- The objects a defining range loop's key/value identifiers put into the
fresh scope. -/
def rangeObjs (key : GExpr) (val : Option GExpr) : List Obj :=
  let obs := match key with | .eident o => objsInsert [] o | _ => []
  match val with
  | some (.eident o) => objsInsert obs o
  | _ => obs

/-- How one walk step relates its input state to its output state: the store
only grows, the input's scopes are untouched, cleanliness and
well-formedness are preserved, and the trace is only appended to. -/
structure ExtsP (a b : SW) : Prop where
  len : a.store.length ≤ b.store.length
  get : ∀ j, j < a.store.length → b.store.get? j = a.store.get? j
  clean : cleanStore a.store = true → cleanStore b.store = true
  wf : wfStore a.store = true → wfStore b.store = true
  tr : ∃ Δ, b.tr = a.tr ++ Δ

/-- Like `ExtsP`, but allowing insertions into the one scope `i` (the scope
`WalkFields` populates). -/
structure ExtsFP (i : Nat) (a b : SW) : Prop where
  len : a.store.length ≤ b.store.length
  get : ∀ j, j < a.store.length → j ≠ i → b.store.get? j = a.store.get? j
  clean : cleanStore a.store = true → cleanStore b.store = true
  wf : wfStore a.store = true → wfStore b.store = true
  tr : ∃ Δ, b.tr = a.tr ++ Δ

/-- The store a defining range statement has built by the time its body is
walked (scopewalker.go lines 179-185): a fresh scope pushed onto the
statement scope, with the key identifier object and, when present, the value
identifier object inserted into it. -/
def rangeStore (st : Store) (sc : Nat) (key : GExpr) (val : Option GExpr) : Store :=
  match val with
  | some (.eident o) =>
    insertToScope
      (match key with
       | .eident o2 => insertToScope (pushScope st sc) st.length o2
       | _ => pushScope st sc) st.length o
  | _ =>
    match key with
    | .eident o2 => insertToScope (pushScope st sc) st.length o2
    | _ => pushScope st sc

/-- A one-scope store binding an outer `x`, for exercising the defining
assignment rule. -/
def exC4St : SW := ⟨[⟨none, [⟨0, "x", ObjKind.var⟩]⟩], []⟩

/-- Left-hand side of the defining assignment `x := x + 1`: a fresh `x`. -/
def exC4Lhs : List GExpr := [.eident ⟨1, "x", ObjKind.var⟩]

/-- Right-hand side of the defining assignment `x := x + 1`, mentioning the
outer `x`. -/
def exC4Rhs : List GExpr := [.ebinary (.eident ⟨0, "x", ObjKind.var⟩) .ebasic]

/-- The key object of the range loop `for i := range ...`. -/
def exC5Obj : Obj := ⟨1, "i", ObjKind.var⟩

/-- A loop body reading `i`. -/
def exC5Body : GStmt := .sblock [.sexpr (.eident exC5Obj)]

/-- The defining range loop `for i := range ... { i }`. -/
def exC5Range : GStmt := .srange true (.eident exC5Obj) none exC5Body

/-- A one-scope starting store for the range-loop walk. -/
def exC5St : SW := ⟨[⟨none, []⟩], []⟩

/-- The store the walker has built when it visits the range loop body: the
fresh scope (index 1) holds `i`. -/
def exC5Snap : Store := [⟨none, []⟩, ⟨some 0, [exC5Obj]⟩]

/-- A one-scope starting store for the file walk of the `insertToScope`
guard claim. -/
def exC6St : SW := ⟨[⟨none, []⟩], []⟩

/-- A file with one method declaration (receiver, one parameter, empty
body), for exercising the file walk. -/
def exC6Decls : List GDecl :=
  [.funcDecl (some ⟨3, "r", ObjKind.var⟩) [.fmk [⟨4, "p", ObjKind.var⟩] .ebasic]
    (some (.sblock []))]

/-! ## Implicit error-check pass: `ShortError.VisitExpr` / `VisitStmt` -/

/-- `token.Position`: the resolved file/line/column of a token position. -/
structure SrcPos where
  filename : String
  line : Nat
  column : Nat

/-- What `fmt.Println` prints for a list of operands already rendered to
strings: the operands joined by single spaces, with no format-verb
processing. -/
def printlnRender (args : List String) : String := String.intercalate " " args

/-- The `file:line:column` rendering of a position that a format string
`"%s:%d:%d"` would produce under `fmt.Printf`-style processing. -/
def posRender (p : SrcPos) : String :=
  p.filename ++ ":" ++ toString p.line ++ ":" ++ toString p.column

/-- The expression shapes `ShortError` distinguishes: identifiers (with
their source range), calls (function, arguments, source range), everything
else. -/
inductive SEExpr where
  | ident (name : String) (startPos endPos : Nat)
  | call (fn : SEExpr) (args : List SEExpr) (startPos endPos : Nat)
  | other

/-- The statement shapes `ShortError.VisitStmt` distinguishes. -/
inductive SEStmt where
  | sassign (startPos tokPos endPos : Nat) (rhs : List SEExpr)
  | sblock
  | sother

/-- The patchable file as `ShortError` consumes it: a position table
(`Fset.Position`), the source-text extractor (`file.Get`), and the file end
position (`afterImports`). -/
structure SEFile where
  fset : Nat → SrcPos
  get : SEExpr → String
  fileEnd : Nat

/-- The mutable visitor state of `ShortError`: the accumulated patches, the
temporary-name counter and the text destined for `init`. -/
structure SEState where
  patches : List GoPatch
  tmpvar : Nat
  initTxt : String

/-- One visit's observable outcome: the lines printed to standard output and
whether the visitor pruned the subtree (returned `nil`). -/
structure SEOut where
  printed : List String
  pruned : Bool

/-- `var MustKeyword = "must"` (shorterror.go line 42). -/
def mustKeyword : String := "must"

/-- `ShortError.VisitExpr` (shorterror.go lines 64-89).  `blockCtx` models
`v.block != nil`, `stmtPos` models `v.stmt.Pos()`, `isBound` models the
scope lookup used by `tempVar`; `none` models a panic inside `tempVar`. -/
def seVisitExpr (file : SEFile) (isBound : String → Bool) (blockCtx : Bool)
    (stmtPos : Nat) (st : SEState) (e : SEExpr) : Option (SEState × SEOut) :=
  match e with
  | .call (.ident fn fnStart _fnEnd) args cstart cend =>
    if fn == mustKeyword then
      if args.length == 1 then
        match tempVar isBound "tmp_" st.tmpvar with
        | none => none
        | some tv =>
          match tempVar isBound "err_" tv.2 with
          | none => none
          | some te =>
            if blockCtx then
              some (⟨st.patches ++
                  [patchInsert stmtPos
                    ("var " ++ tv.1 ++ ", " ++ te.1 ++ " = " ++
                      file.get (args.headD .other) ++ "; " ++
                      "if " ++ te.1 ++ " != nil \x7bpanic(" ++ te.1 ++ ")\x7d;"),
                   ⟨cstart, cend, tv.1⟩], te.2, st.initTxt⟩, ⟨[], false⟩)
            else
              some (⟨st.patches ++
                  [⟨cstart, cend, tv.1⟩,
                   patchInsert file.fileEnd
                     (";var " ++ tv.1 ++ ", " ++ te.1 ++ " = " ++
                       file.get (args.headD .other))],
                te.2,
                st.initTxt ++
                  ("if " ++ te.1 ++ " != nil \x7bpanic(" ++ te.1 ++ ")\x7d;")⟩,
               ⟨[], false⟩)
      else
        some (st, ⟨[printlnRender
          ["%s:%d:%d: \x27must\x27 builtin must be called with exactly one argument",
           (file.fset fnStart).filename, toString (file.fset fnStart).line,
           toString (file.fset fnStart).column]], true⟩)
    else some (st, ⟨[], false⟩)
  | _ => some (st, ⟨[], false⟩)

/-- The argument loop of the `AssignStmt` branch of `VisitStmt` (line 140):
each right-hand argument is visited with `VisitExpr`, threading the state
and collecting printed lines (the returned sub-visitor is discarded). -/
def seVisitArgsF (file : SEFile) (isBound : String → Bool) (blockCtx : Bool)
    (stmtPos : Nat) (st : SEState) (args : List SEExpr) :
    Option (SEState × List String) :=
  match args with
  | [] => some (st, [])
  | a :: tl =>
    match seVisitExpr file isBound blockCtx stmtPos st a with
    | none => none
    | some r =>
      match seVisitArgsF file isBound blockCtx stmtPos r.1 tl with
      | none => none
      | some r2 => some (r2.1, r.2.printed ++ r2.2)

/-- `ShortError.VisitStmt` (shorterror.go lines 118-145).  A block returns a
fresh sub-visitor (counter reset, fresh init text, shared patches); an
assignment whose single right-hand side is a call of the `must` identifier
is instrumented — with no argument-count check — and pruned; everything
else keeps the visitor. -/
def seVisitStmt (file : SEFile) (isBound : String → Bool) (blockCtx : Bool)
    (st : SEState) (stm : SEStmt) : Option (SEState × SEOut) :=
  match stm with
  | .sblock => some (⟨st.patches, 0, ""⟩, ⟨[], false⟩)
  | .sassign startPos tokPos endPos rhs =>
    match rhs with
    | [SEExpr.call (SEExpr.ident fn fnStart fnEnd) args _cstart _cend] =>
      if fn == mustKeyword then
        match tempVar isBound "assignerr_" st.tmpvar with
        | none => none
        | some tv =>
          match seVisitArgsF file isBound blockCtx startPos
              ⟨st.patches ++
                [patchInsert tokPos (", " ++ tv.1 ++ " "),
                 ⟨fnStart, fnEnd, ""⟩,
                 patchInsert endPos
                   ("; if " ++ tv.1 ++ " != nil " ++
                     "\x7b panic(" ++ tv.1 ++ ") \x7d;")], tv.2, st.initTxt⟩
              args with
          | none => none
          | some r => some (r.1, ⟨r.2, true⟩)
      else some (st, ⟨[], false⟩)
    | _ => some (st, ⟨[], false⟩)
  | .sother => some (st, ⟨[], false⟩)

/-- A position table placing every token at `f.go:3:7`, with a fixed source
extract and file end. -/
def exC7File : SEFile := ⟨fun _ => ⟨"f.go", 3, 7⟩, fun _ => "f(x)", 100⟩

/-- A `must` call with zero arguments (the malformed usage). -/
def exC7BadCall : SEExpr := .call (.ident "must" 40 44) [] 40 60

/-- An empty starting visitor state. -/
def exC7State : SEState := ⟨[], 0, ""⟩

/-- The assignment `x := must(a, b)`: single right-hand side, a `must` call
with two arguments. -/
def exC7Assign : SEStmt :=
  .sassign 30 35 70 [.call (.ident "must" 40 44) [.other, .other] 40 60]

/-! ## Theorems -/

mutual
/-- Processed paths only grow along the import loop. -/
theorem goImports_mono (env : List (String × IPkg)) (bp : String) (fuel : Nat)
    (processed : List String) (cur : IPkg) (imps : List String) (p ord : List String)
    (h : goImports env bp fuel processed cur imps = .ok p ord) :
    ∀ x, x ∈ processed → x ∈ p := by
  cases imps with
  | nil =>
    rw [goImports] at h
    simp only [IResult.ok.injEq] at h
    intro x hx
    rw [← h.1]
    exact hx
  | cons imp rest =>
    rw [goImports] at h
    split at h
    · split at h
      · cases h
      · next q hq =>
        split at h
        · next p1 ord1 hres =>
          split at h
          · next p2 ord2 hres2 =>
            simp only [IResult.ok.injEq] at h
            intro x hx
            rw [← h.1]
            exact goImports_mono env bp fuel p1 cur rest p2 ord2 hres2 x
              (instrumentToF_mono env bp fuel processed q p1 ord1 hres x hx)
          · next hne => exact absurd h (hne p ord)
        · next hne => exact absurd h (hne p ord)
    · exact goImports_mono env bp fuel processed cur rest p ord h
termination_by (fuel, imps.length + 1)

/-- Processed paths only grow along the recursive traversal. -/
theorem instrumentToF_mono (env : List (String × IPkg)) (bp : String) (fuel : Nat)
    (processed : List String) (pkg : IPkg) (p ord : List String)
    (h : instrumentToF env bp fuel processed pkg = .ok p ord) :
    ∀ x, x ∈ processed → x ∈ p := by
  rw [instrumentToF.eq_def] at h
  split at h
  · simp only [IResult.ok.injEq] at h
    intro x hx
    rw [← h.1]
    exact hx
  · split at h
    · exact absurd h (by simp)
    · next f =>
      split at h
      · next p1 ord1 hg =>
        simp only [IResult.ok.injEq] at h
        intro x hx
        rw [← h.1]
        exact goImports_mono env bp f (pkg.importPath :: processed) pkg _ p1 ord1 hg x
          (List.mem_cons_of_mem _ hx)
      · next hne => exact absurd h (hne p ord)
termination_by (fuel, 0)
end

/-- C1 (code bug evidence): `appendNoContradict` accepts a patch whose range
strictly contains an accepted patch's range.  Starting from the empty set,
the patch `[2,3)` is accepted, and then `[1,5)` — which overlaps it — is
appended rather than dropped, so the accepted set holds two overlapping
patches. -/
theorem claimC1 :
    appendNoContradict [] ⟨2, 3, "a"⟩ = [⟨2, 3, "a"⟩] ∧
    appendNoContradict [⟨2, 3, "a"⟩] ⟨1, 5, "b"⟩ = [⟨2, 3, "a"⟩, ⟨1, 5, "b"⟩] ∧
    Overlaps ⟨2, 3, "a"⟩ ⟨1, 5, "b"⟩ := by
  refine ⟨rfl, by decide, by decide, by decide⟩

/-- C3 counterexample: with no base path configured but a package inside
GOPATH (import path `"a/b"`), the source predicate takes the
prefix-or-suffix branch with an empty base path and matches the
non-local import `"fmt"`, while the spec's precedence demands the local-only
branch, which rejects it. -/
theorem claimC3_counterexample :
    relevantImport ⟨"", "a/b"⟩ "fmt" = true ∧
    relevantImportSpec ⟨"", "a/b"⟩ "fmt" = false ∧
    isLocalImport "fmt" = false := by
  refine ⟨by decide, by decide, by decide⟩

/-- C3 (amended): the wildcard matches everything; the prefix-or-suffix branch
is taken when an explicit base path is configured OR the package lies in
GOPATH (its import path differs from `"."`) — with an empty base path that
branch matches every import; only otherwise are exactly the local imports
relevant. -/
theorem claimC3 (c : InstrCfg) (imp : String) :
    (c.basepkg = "*" → relevantImport c imp = true) ∧
    (c.basepkg ≠ "*" → (c.basepkg ≠ "" ∨ c.importPath ≠ ".") →
      relevantImport c imp = (hasPre imp c.basepkg || hasPre c.basepkg imp)) ∧
    (c.basepkg ≠ "*" → c.basepkg = "" → c.importPath = "." →
      relevantImport c imp = isLocalImport imp) := by
  refine ⟨?_, ?_, ?_⟩
  · intro h
    simp [relevantImport, h]
  · intro h hor
    have hne : (c.basepkg == "*") = false := by
      simp [h]
    have : (isInGopath c || c.basepkg != "") = true := by
      rcases hor with h1 | h1 <;> simp [isInGopath, h1]
    simp [relevantImport, hne, this]
  · intro h h0 hdot
    simp [relevantImport, isInGopath, h, h0, hdot]

/-- C3 witness: concrete instances of the three branches of the amended
characterization. -/
theorem claimC3_witness :
    relevantImport ⟨"*", "x"⟩ "fmt" = true ∧
    relevantImport ⟨"a", "a/b"⟩ "a/c" = (hasPre "a/c" "a" || hasPre "a" "a/c") ∧
    relevantImport ⟨"", "."⟩ "./sub" = isLocalImport "./sub" := by
  refine ⟨(claimC3 ⟨"*", "x"⟩ "fmt").1 rfl,
    (claimC3 ⟨"a", "a/b"⟩ "a/c").2.1 (by decide) (Or.inl (by decide)),
    (claimC3 ⟨"", "."⟩ "./sub").2.2 (by decide) rfl rfl⟩

/-- C9: the temporary-name generator always terminates with one of two
outcomes: a fresh name `stem ++ counter` that the scope does not bind, found
at the first free counter value below the 10000 bound, or the loud failure
(`none`, the panic) when every candidate in the bounded range is bound. -/
theorem claimC9 (isBound : String → Bool) (stem : String) (i : Nat) :
    (∃ j, i ≤ j ∧ j < 10 * 1000 ∧
      tempVar isBound stem i = some (stem ++ toString j, j + 1) ∧
      isBound (stem ++ toString j) = false ∧
      (∀ k, i ≤ k → k < j → isBound (stem ++ toString k) = true)) ∨
    (tempVar isBound stem i = none ∧
      ∀ k, i ≤ k → k < 10 * 1000 → isBound (stem ++ toString k) = true) := by
  by_cases hi : i < 10 * 1000
  · by_cases hb : isBound (stem ++ toString i) = true
    · have step : tempVar isBound stem i = tempVar isBound stem (i + 1) := by
        rw [tempVar]
        simp [hi, hb]
      rcases claimC9 isBound stem (i + 1) with ⟨j, hj1, hj2, hj3, hj4, hj5⟩ | ⟨h1, h2⟩
      · refine Or.inl ⟨j, by omega, hj2, by rw [step]; exact hj3, hj4, ?_⟩
        intro k hk1 hk2
        rcases Nat.eq_or_lt_of_le hk1 with rfl | hk
        · exact hb
        · exact hj5 k hk hk2
      · refine Or.inr ⟨by rw [step]; exact h1, ?_⟩
        intro k hk1 hk2
        rcases Nat.eq_or_lt_of_le hk1 with rfl | hk
        · exact hb
        · exact h2 k hk hk2
    · refine Or.inl ⟨i, le_refl i, hi, ?_, by simpa using hb, fun k hk1 hk2 => by omega⟩
      rw [tempVar]
      simp [hi, hb]
  · refine Or.inr ⟨by rw [tempVar]; simp [hi], fun k hk1 hk2 => by omega⟩
termination_by 10 * 1000 - i
decreasing_by omega

/-- A package delivered by the resolution table has its import path among the
table's package paths. -/
theorem lookupEnv_path_mem (env : List (String × IPkg)) (imp : String) (q : IPkg)
    (h : lookupEnv env imp = some q) :
    q.importPath ∈ env.map (fun pr => pr.2.importPath) := by
  unfold lookupEnv at h
  cases hf : env.find? (fun pr => pr.1 == imp) with
  | none => rw [hf] at h; cases h
  | some pr =>
    rw [hf] at h
    simp only [Option.map_some', Option.some.injEq] at h
    rw [← h]
    exact List.mem_map_of_mem _ (List.mem_of_find?_eq_some hf)

/-- Growing the processed set can only shrink the count of unprocessed
package paths. -/
theorem unproc_mono (env : List (String × IPkg)) (p p' : List String)
    (hsub : ∀ x, x ∈ p → x ∈ p') : unprocCount env p' ≤ unprocCount env p := by
  unfold unprocCount
  refine List.Sublist.length_le (List.monotone_filter_right _ ?_)
  intro a ha
  cases hb : p.contains a with
  | false => rfl
  | true =>
    exfalso
    have hmem : a ∈ p := by simpa using hb
    have hb2 : p'.contains a = true := by
      have : a ∈ p' := hsub a hmem
      simpa using this
    rw [hb2] at ha
    cases ha

/-- Marking an unprocessed package path of the table processed strictly
decreases the count of unprocessed paths. -/
theorem unproc_cons_lt (env : List (String × IPkg)) (processed : List String) (q : IPkg)
    (hq : q.importPath ∈ env.map (fun pr => pr.2.importPath))
    (hnp : ¬ q.importPath ∈ processed) :
    unprocCount env (q.importPath :: processed) < unprocCount env processed := by
  unfold unprocCount
  have hsub : List.Sublist
      (((env.map (fun pr => pr.2.importPath)).dedup).filter
        (fun x => !(q.importPath :: processed).contains x))
      (((env.map (fun pr => pr.2.importPath)).dedup).filter
        (fun x => !processed.contains x)) := by
    refine List.monotone_filter_right _ ?_
    intro a ha
    cases hb : processed.contains a with
    | false => rfl
    | true =>
      exfalso
      have hb2 : (q.importPath :: processed).contains a = true := by
        simp only [List.contains_cons, hb, Bool.or_true]
      rw [hb2] at ha
      cases ha
  have hin : q.importPath ∈ ((env.map (fun pr => pr.2.importPath)).dedup).filter
      (fun x => !processed.contains x) := by
    refine List.mem_filter.mpr ⟨List.mem_dedup.mpr hq, ?_⟩
    simpa using hnp
  have hnot : ¬ q.importPath ∈ ((env.map (fun pr => pr.2.importPath)).dedup).filter
      (fun x => !(q.importPath :: processed).contains x) := by
    intro hmem
    have h2 := (List.mem_filter.mp hmem).2
    simp at h2
  rcases Nat.lt_or_ge (((env.map (fun pr => pr.2.importPath)).dedup).filter
      (fun x => !(q.importPath :: processed).contains x)).length
      (((env.map (fun pr => pr.2.importPath)).dedup).filter
      (fun x => !processed.contains x)).length with hlt | hge
  · exact hlt
  · have heq := hsub.eq_of_length (le_antisymm hsub.length_le hge)
    rw [← heq] at hin
    exact absurd hin hnot

mutual
/-- Along the import loop, the emitted instrumentation order has no
duplicates, avoids every already-processed path, and lands in the final
processed set. -/
theorem goImports_order (env : List (String × IPkg)) (bp : String) (fuel : Nat)
    (processed : List String) (cur : IPkg) (imps : List String) (p ord : List String)
    (h : goImports env bp fuel processed cur imps = .ok p ord) :
    ord.Nodup ∧ (∀ x, x ∈ ord → ¬ x ∈ processed) ∧ (∀ x, x ∈ ord → x ∈ p) := by
  cases imps with
  | nil =>
    rw [goImports] at h
    simp only [IResult.ok.injEq] at h
    rw [← h.2]
    exact ⟨List.nodup_nil, by simp, by simp⟩
  | cons imp rest =>
    rw [goImports] at h
    split at h
    · split at h
      · cases h
      · next q hq =>
        split at h
        · next p1 ord1 hres =>
          split at h
          · next p2 ord2 hres2 =>
            simp only [IResult.ok.injEq] at h
            obtain ⟨hp, hord⟩ := h
            obtain ⟨h1n, h1p, h1in⟩ := instrumentToF_order env bp fuel processed q p1 ord1 hres
            obtain ⟨h2n, h2p, h2in⟩ := goImports_order env bp fuel p1 cur rest p2 ord2 hres2
            have hmono1 := instrumentToF_mono env bp fuel processed q p1 ord1 hres
            have hmono2 := goImports_mono env bp fuel p1 cur rest p2 ord2 hres2
            subst hp hord
            refine ⟨List.Nodup.append h1n h2n ?_, ?_, ?_⟩
            · intro a ha1 ha2
              exact h2p a ha2 (h1in a ha1)
            · intro x hx
              rcases List.mem_append.mp hx with hx1 | hx2
              · exact h1p x hx1
              · exact fun hmem => h2p x hx2 (hmono1 x hmem)
            · intro x hx
              rcases List.mem_append.mp hx with hx1 | hx2
              · exact hmono2 x (h1in x hx1)
              · exact h2in x hx2
          · next hne => exact absurd h (hne p ord)
        · next hne => exact absurd h (hne p ord)
    · exact goImports_order env bp fuel processed cur rest p ord h
termination_by (fuel, imps.length + 1)

/-- Along the recursive traversal, the emitted instrumentation order has no
duplicates, avoids every already-processed path, and lands in the final
processed set: every package is instrumented at most once. -/
theorem instrumentToF_order (env : List (String × IPkg)) (bp : String) (fuel : Nat)
    (processed : List String) (pkg : IPkg) (p ord : List String)
    (h : instrumentToF env bp fuel processed pkg = .ok p ord) :
    ord.Nodup ∧ (∀ x, x ∈ ord → ¬ x ∈ processed) ∧ (∀ x, x ∈ ord → x ∈ p) := by
  rw [instrumentToF.eq_def] at h
  split at h
  · simp only [IResult.ok.injEq] at h
    rw [← h.2]
    exact ⟨List.nodup_nil, by simp, by simp⟩
  · next hcont =>
    split at h
    · cases h
    · next f =>
      split at h
      · next p1 ord1 hg =>
        simp only [IResult.ok.injEq] at h
        obtain ⟨hp, hord⟩ := h
        obtain ⟨hn, hpn, hin⟩ := goImports_order env bp f (pkg.importPath :: processed) pkg
          (pkg.imports ++ pkg.testImports ++ pkg.xtestImports) p1 ord1 hg
        have hmono := goImports_mono env bp f (pkg.importPath :: processed) pkg
          (pkg.imports ++ pkg.testImports ++ pkg.xtestImports) p1 ord1 hg
        subst hp hord
        refine ⟨List.Nodup.append hn (List.nodup_singleton _) ?_, ?_, ?_⟩
        · intro a ha1 ha2
          rw [List.mem_singleton] at ha2
          subst ha2
          exact hpn _ ha1 (List.mem_cons_self _ _)
        · intro x hx
          rcases List.mem_append.mp hx with hx1 | hx2
          · exact fun hmem => hpn x hx1 (List.mem_cons_of_mem _ hmem)
          · rw [List.mem_singleton] at hx2
            subst hx2
            simpa using hcont
        · intro x hx
          rcases List.mem_append.mp hx with hx1 | hx2
          · exact hin x hx1
          · rw [List.mem_singleton] at hx2
            subst hx2
            exact hmono pkg.importPath (List.mem_cons_self _ _)
      · next hne => exact absurd h (hne p ord)
termination_by (fuel, 0)
end

mutual
/-- With more fuel than unprocessed package paths, the import loop never runs
out of fuel. -/
theorem goImports_fuel (env : List (String × IPkg)) (bp : String) (fuel : Nat)
    (processed : List String) (cur : IPkg) (imps : List String)
    (h : unprocCount env processed < fuel) :
    goImports env bp fuel processed cur imps ≠ .outOfFuel := by
  intro hcon
  cases imps with
  | nil => rw [goImports] at hcon; cases hcon
  | cons imp rest =>
    rw [goImports] at hcon
    split at hcon
    · split at hcon
      · cases hcon
      · next q hq =>
        split at hcon
        · next p1 ord1 hres =>
          split at hcon
          · cases hcon
          · next hne =>
            have hsub := instrumentToF_mono env bp fuel processed q p1 ord1 hres
            have hle := unproc_mono env processed p1 hsub
            exact goImports_fuel env bp fuel p1 cur rest (by omega) hcon
        · next hne =>
          exact instrumentToF_fuel env bp fuel processed imp q hq h hcon
    · exact goImports_fuel env bp fuel processed cur rest h hcon
termination_by (fuel, imps.length + 1)

/-- With more fuel than unprocessed package paths, instrumenting a package
delivered by the resolution table never runs out of fuel. -/
theorem instrumentToF_fuel (env : List (String × IPkg)) (bp : String) (fuel : Nat)
    (processed : List String) (imp : String) (q : IPkg)
    (hq : lookupEnv env imp = some q) (h : unprocCount env processed < fuel) :
    instrumentToF env bp fuel processed q ≠ .outOfFuel := by
  intro hcon
  rw [instrumentToF.eq_def] at hcon
  split at hcon
  · cases hcon
  · next hcont =>
    split at hcon
    · omega
    · next f =>
      split at hcon
      · cases hcon
      · next hne =>
        have hmem := lookupEnv_path_mem env imp q hq
        have hnp : ¬ q.importPath ∈ processed := by simpa using hcont
        have hlt := unproc_cons_lt env processed q hmem hnp
        exact goImports_fuel env bp f (q.importPath :: processed) q
          (q.imports ++ q.testImports ++ q.xtestImports) (by omega) hcon
termination_by (fuel, 0)
end

/-- With two units of slack the fuel bound also covers a root package that is
not in the resolution table. -/
theorem instrumentToF_fuel_top (env : List (String × IPkg)) (bp : String) (fuel : Nat)
    (processed : List String) (pkg : IPkg)
    (h : unprocCount env processed + 1 < fuel) :
    instrumentToF env bp fuel processed pkg ≠ .outOfFuel := by
  intro hcon
  rw [instrumentToF.eq_def] at hcon
  split at hcon
  · cases hcon
  · next hcont =>
    split at hcon
    · omega
    · next f =>
      split at hcon
      · cases hcon
      · next hne =>
        have hle : unprocCount env (pkg.importPath :: processed) ≤ unprocCount env processed :=
          unproc_mono env processed _ (fun x hx => List.mem_cons_of_mem _ hx)
        exact goImports_fuel env bp f (pkg.importPath :: processed) pkg
          (pkg.imports ++ pkg.testImports ++ pkg.xtestImports) (by omega) hcon

/-- C2: during one instrumentation run (a) a package whose import path is
already in the `processed` map is returned untouched — no instrumentation
event, no new processed entries; (b) the emitted instrumentation order never
repeats an import path, even for diamond or cyclic import graphs; (c) the
traversal terminates: with fuel exceeding the number of distinct package
paths of the universe it never exhausts its recursion budget. -/
theorem claimC2 (env : List (String × IPkg)) (bp : String) (processed : List String)
    (pkg : IPkg) :
    (∀ fuel, processed.contains pkg.importPath = true →
      instrumentToF env bp fuel processed pkg = .ok processed []) ∧
    (∀ fuel p ord, instrumentToF env bp fuel processed pkg = .ok p ord → ord.Nodup) ∧
    InstrumentTo env bp pkg ≠ .outOfFuel := by
  refine ⟨?_, ?_, ?_⟩
  · intro fuel hc
    rw [instrumentToF.eq_def, if_pos hc]
  · intro fuel p ord h
    exact (instrumentToF_order env bp fuel processed pkg p ord h).1
  · unfold InstrumentTo
    refine instrumentToF_fuel_top env bp _ [] pkg ?_
    have hle : unprocCount env [] ≤ envPathCount env := by
      unfold unprocCount envPathCount
      exact List.length_filter_le _ _
    omega

/-- C2 witness: on the concrete diamond-and-cycle universe, a root already
marked processed is skipped, a full run's instrumentation order is
duplicate-free, and the traversal performed with the canonical fuel does not
exhaust it. -/
theorem claimC2_witness :
    instrumentToF env0 "*" 6 ["a"] pkgA = .ok ["a"] [] ∧
    (ordOf (instrumentToF env0 "*" 6 [] pkgA)).Nodup ∧
    InstrumentTo env0 "*" pkgA ≠ .outOfFuel := by
  refine ⟨(claimC2 env0 "*" ["a"] pkgA).1 6 (by decide), ?_,
    (claimC2 env0 "*" [] pkgA).2.2⟩
  cases hres : instrumentToF env0 "*" 6 [] pkgA with
  | ok p o => exact (claimC2 env0 "*" [] pkgA).2.1 6 p o hres
  | errImport i => exact List.nodup_nil
  | outOfFuel => exact List.nodup_nil

/-- Retargeting a `build` command with no explicit output flag reduces to the
outcome of `getOutputFileName`. -/
theorem retarget_build_noflag (env : BuildEnv) (cmd : GoCmd) (newdir r : String)
    (hcmd : cmd.command = "build") (hof : flagsGet cmd.buildFlags "o" = "")
    (hrel : env.rel newdir cmd.workDir = some r) (res : Except String String)
    (hres : getOutputFileName env cmd = res) :
    Retarget env cmd newdir = (match res with
      | .error e => .error e
      | .ok name => .ok ⟨newdir, cmd.executable, cmd.command,
          flagsSet cmd.buildFlags "o" (env.join r name), cmd.params, cmd.extraFlags⟩) := by
  unfold Retarget
  rw [hrel]
  simp [hcmd, hof, hres]
  cases res <;> rfl

/-- C8: retargeting a `build` command with no explicit output flag (a) fails
with the dedicated error when more than one target package is named, (b)
fails with the non-main-package error when the resolved target is not a
`main` package, and (c) otherwise sets the output flag to the relative path
from the new directory back to the original working directory joined with
the base name of the target package's directory, moving the command to the
new directory and keeping everything else. -/
theorem claimC8 (env : BuildEnv) (cmd : GoCmd) (newdir r : String)
    (hcmd : cmd.command = "build") (hof : flagsGet cmd.buildFlags "o" = "")
    (hrel : env.rel newdir cmd.workDir = some r) :
    (cmd.params.length > 1 →
      Retarget env cmd newdir = .error "No support for more than a single package") ∧
    (∀ pkg, cmd.params = [] → env.importDir cmd.workDir = some pkg →
      ¬ pkg.name = "main" →
      Retarget env cmd newdir =
        .error "gosloppy should be used for testing packages or producing executables, not for building packages") ∧
    (∀ pkg d, cmd.params = [] → env.importDir cmd.workDir = some pkg →
      pkg.name = "main" → env.abs pkg.dir = some d →
      Retarget env cmd newdir = .ok ⟨newdir, cmd.executable, cmd.command,
        flagsSet cmd.buildFlags "o" (env.join r (basename d)), cmd.params,
        cmd.extraFlags⟩) := by
  refine ⟨?_, ?_, ?_⟩
  · intro hlen
    have hg : getOutputFileName env cmd = .error "No support for more than a single package" := by
      unfold getOutputFileName
      rw [if_pos hlen]
    simpa using retarget_build_noflag env cmd newdir r hcmd hof hrel _ hg
  · intro pkg hp hdir hname
    have hg : getOutputFileName env cmd =
        .error "gosloppy should be used for testing packages or producing executables, not for building packages" := by
      unfold getOutputFileName
      rw [hp]
      simp [hdir, hname]
    simpa using retarget_build_noflag env cmd newdir r hcmd hof hrel _ hg
  · intro pkg d hp hdir hname habs
    have hg : getOutputFileName env cmd = .ok (basename d) := by
      unfold getOutputFileName
      rw [hp]
      simp [hdir, hname, habs]
    simpa using retarget_build_noflag env cmd newdir r hcmd hof hrel _ hg

/-- C8 witness: in the concrete environment, a two-package build fails with
the single-package error, and the plain build is retargeted to `/tmp/out`
with output flag `../../w/app/app`. -/
theorem claimC8_witness :
    Retarget buildEnvEx cmdBuildTwo "/tmp/out" =
      .error "No support for more than a single package" ∧
    Retarget buildEnvEx cmdBuildEx "/tmp/out" = .ok ⟨"/tmp/out", "go", "build",
      flagsSet [] "o" (buildEnvEx.join "../../w/app" (basename "/w/app")), [], []⟩ := by
  refine ⟨(claimC8 buildEnvEx cmdBuildTwo "/tmp/out" "../../w/app" rfl rfl rfl).1
      (by decide),
    (claimC8 buildEnvEx cmdBuildEx "/tmp/out" "../../w/app" rfl rfl rfl).2.2
      ⟨"main", "/w/app"⟩ "/w/app" rfl rfl rfl rfl⟩

/-- C10: any accepted `build` command has an empty positional parameter list
(the second switch in `NewGoCmdWithFlags` spells its case `"buid"`, so
`"build"` never collects `flags.Args()`), and therefore deriving a default
output name for such a command never consults the named-package resolver:
`getOutputFileName` is invariant under replacing it. -/
theorem claimC10 (parse : List String → Option ParseOutcome) (globalArgs : List String)
    (workdir : String) (args : List String) (cmd : GoCmd)
    (hverb : args.getD 1 "" = "build")
    (h : newGoCmdWithFlags parse globalArgs workdir args = .ok cmd) :
    cmd.params = [] ∧
    ∀ env f, getOutputFileName { env with importPkg := f } cmd =
      getOutputFileName env cmd := by
  have hp : cmd.params = [] := by
    unfold newGoCmdWithFlags at h
    split at h
    · cases h
    · simp only [hverb] at h
      simp at h
      cases hpo : parse (args.drop 2) with
      | none => rw [hpo] at h; cases h
      | some po =>
        rw [hpo] at h
        simp at h
        rw [← h]
  refine ⟨hp, ?_⟩
  intro env f
  unfold getOutputFileName
  rw [hp]

/-- The command produced by `go build pkg1` in the example setup. -/
theorem claimC10_witness :
    (GoCmd.mk "/w" "go" "build" [] [] []).params = [] ∧
    getOutputFileName
      { buildEnvEx with importPkg := fun _ => some ⟨"main", "/elsewhere"⟩ }
      (GoCmd.mk "/w" "go" "build" [] [] []) =
      getOutputFileName buildEnvEx (GoCmd.mk "/w" "go" "build" [] [] []) := by
  have h := claimC10 parseEx [] "/w" argsBuildEx (GoCmd.mk "/w" "go" "build" [] [] [])
    rfl rfl
  exact ⟨h.1, h.2 buildEnvEx _⟩

/-- Unfolding of the well-formedness boolean. -/
theorem wfStore_iff (st : Store) : wfStore st = true ↔
    ∀ i sr, st.get? i = some sr → ∀ out, sr.outer = some out → out < i := by
  unfold wfStore
  rw [List.all_eq_true]
  constructor
  · intro h i sr hget out hout
    have hi : i < st.length := by
      by_contra hge
      rw [List.get?_eq_none.mpr (by omega)] at hget
      cases hget
    have h2 := h i (List.mem_range.mpr hi)
    rw [hget] at h2
    simp only [hout, decide_eq_true_eq] at h2
    exact h2
  · intro h i _
    cases hget : st.get? i with
    | none => simp
    | some sr =>
      cases hout : sr.outer with
      | none => simp [hout]
      | some out =>
        simp only [hout, decide_eq_true_eq]
        exact h i sr hget out hout

/-- Unfolding of the cleanliness boolean. -/
theorem cleanStore_iff (st : Store) : cleanStore st = true ↔
    ∀ sr, sr ∈ st → ∀ o, o ∈ sr.objects →
      ¬ o.name = "_" ∧ ¬ (o.kind = ObjKind.fn ∧ o.name = "init") := by
  unfold cleanStore
  rw [List.all_eq_true]
  constructor
  · intro h sr hsr o ho
    have h2 := h sr hsr
    rw [List.all_eq_true] at h2
    have h3 := h2 o ho
    constructor
    · intro hne
      simp [hne] at h3
    · rintro ⟨hk, hn⟩
      simp [hk, hn] at h3
  · intro h sr hsr
    rw [List.all_eq_true]
    intro o ho
    obtain ⟨h1, h2⟩ := h sr hsr o ho
    have hb1 : (o.name == "_") = false := by
      simpa using h1
    have hb2 : (o.kind == ObjKind.fn && o.name == "init") = false := by
      by_cases hk : o.kind = ObjKind.fn
      · have hni : ¬ o.name = "init" := fun hn => h2 ⟨hk, hn⟩
        have hnb : (o.name == "init") = false := by simpa using hni
        simp [hk, hnb]
      · have hkb : (o.kind == ObjKind.fn) = false := by simpa using hk
        simp [hkb]
    rw [hb1, hb2]
    rfl

/-- `pushScope` preserves length, prefix, cleanliness and (when the outer
index is valid) well-formedness. -/
theorem pushScope_get (st : Store) (out : Nat) (j : Nat) (hj : j < st.length) :
    (pushScope st out).get? j = st.get? j := by
  unfold pushScope
  exact List.get?_append hj

/-- The freshly pushed scope sits at the old length. -/
theorem pushScope_get_new (st : Store) (out : Nat) :
    (pushScope st out).get? st.length = some ⟨some out, []⟩ := by
  unfold pushScope
  exact List.get?_concat_length st _

/-- `pushScope` keeps the store clean. -/
theorem cleanStore_push (st : Store) (out : Nat) (h : cleanStore st = true) :
    cleanStore (pushScope st out) = true := by
  rw [cleanStore_iff] at h ⊢
  intro sr hsr o ho
  unfold pushScope at hsr
  rcases List.mem_append.mp hsr with hmem | hmem
  · exact h sr hmem o ho
  · rw [List.mem_singleton] at hmem
    subst hmem
    cases ho

/-- `pushScope` with a valid outer index keeps the store well-formed. -/
theorem wfStore_push (st : Store) (out : Nat) (hout : out < st.length)
    (h : wfStore st = true) : wfStore (pushScope st out) = true := by
  rw [wfStore_iff] at h ⊢
  intro i sr hget o ho
  rcases Nat.lt_trichotomy i st.length with hi | hi | hi
  · rw [pushScope_get st out i hi] at hget
    exact h i sr hget o ho
  · subst hi
    rw [pushScope_get_new] at hget
    cases hget
    cases ho
    exact hout
  · exfalso
    rw [List.get?_eq_none.mpr (by unfold pushScope; simp; omega)] at hget
    cases hget

/-- `pushScope` adds exactly one scope. -/
theorem pushScope_length (st : Store) (out : Nat) :
    (pushScope st out).length = st.length + 1 := by
  unfold pushScope
  simp

/-- `storeInsert` keeps the store length. -/
theorem storeInsert_length (st : Store) (i : Nat) (o : Obj) :
    (storeInsert st i o).length = st.length := by
  unfold storeInsert
  cases st.get? i <;> simp

/-- `insertToScope` keeps the store length. -/
theorem insertToScope_length (st : Store) (i : Nat) (o : Obj) :
    (insertToScope st i o).length = st.length := by
  unfold insertToScope
  split
  · rfl
  · split
    · rfl
    · exact storeInsert_length st i o

/-- `insertToScope` leaves every other scope unchanged. -/
theorem insertToScope_get_ne (st : Store) (i : Nat) (o : Obj) (j : Nat) (hne : j ≠ i) :
    (insertToScope st i o).get? j = st.get? j := by
  unfold insertToScope storeInsert
  split
  · rfl
  · split
    · rfl
    · split
      · next sr hget => exact List.get?_set_ne _ _ (fun h => hne h.symm)
      · rfl

/-- `insertToScope` updates the target scope by the list-level `objsInsert`. -/
theorem insertToScope_get_eq (st : Store) (i : Nat) (o : Obj) (out : Option Nat)
    (obs : List Obj) (h : st.get? i = some ⟨out, obs⟩) :
    (insertToScope st i o).get? i = some ⟨out, objsInsert obs o⟩ := by
  have hi : i < st.length := by
    by_contra hge
    rw [List.get?_eq_none.mpr (by omega)] at h
    cases h
  by_cases h1 : (o.name == "_") = true
  · have hins : insertToScope st i o = st := by
      unfold insertToScope
      rw [if_pos h1]
    have hobjs : objsInsert obs o = obs := by
      unfold objsInsert
      rw [if_pos h1]
    rw [hins, hobjs]
    exact h
  · by_cases h2 : (o.kind == ObjKind.fn && o.name == "init") = true
    · have hins : insertToScope st i o = st := by
        unfold insertToScope
        rw [if_neg h1, if_pos h2]
      have hobjs : objsInsert obs o = obs := by
        unfold objsInsert
        rw [if_neg h1, if_pos h2]
      rw [hins, hobjs]
      exact h
    · have hins : insertToScope st i o = st.set i (scopeInsert ⟨out, obs⟩ o) := by
        unfold insertToScope storeInsert
        rw [if_neg h1, if_neg h2, h]
      by_cases h3 : (obs.any (fun p => p.name == o.name)) = true
      · have hscope : scopeInsert ⟨out, obs⟩ o = ⟨out, obs⟩ := by
          show (if (obs.any (fun p => p.name == o.name)) = true then (⟨out, obs⟩ : ScopeRec)
            else ⟨out, obs ++ [o]⟩) = ⟨out, obs⟩
          rw [if_pos h3]
        have hobjs : objsInsert obs o = obs := by
          unfold objsInsert
          rw [if_neg h1, if_neg h2, if_pos h3]
        rw [hins, hscope, hobjs, List.get?_set_eq_of_lt _ hi]
      · have hscope : scopeInsert ⟨out, obs⟩ o = ⟨out, obs ++ [o]⟩ := by
          show (if (obs.any (fun p => p.name == o.name)) = true then (⟨out, obs⟩ : ScopeRec)
            else ⟨out, obs ++ [o]⟩) = ⟨out, obs ++ [o]⟩
          rw [if_neg h3]
        have hobjs : objsInsert obs o = obs ++ [o] := by
          unfold objsInsert
          rw [if_neg h1, if_neg h2, if_neg h3]
        rw [hins, hscope, hobjs, List.get?_set_eq_of_lt _ hi]

/-- `insertToScope` keeps the store clean (the guards refuse the two
forbidden objects; everything else is recorded). -/
theorem cleanStore_insert (st : Store) (i : Nat) (o : Obj) (h : cleanStore st = true) :
    cleanStore (insertToScope st i o) = true := by
  unfold insertToScope
  by_cases h1 : (o.name == "_") = true
  · simpa [h1] using h
  · by_cases h2 : (o.kind == ObjKind.fn && o.name == "init") = true
    · simpa [h1, h2] using h
    · simp only [h1, h2, if_neg, if_false]
      unfold storeInsert
      cases hget : st.get? i with
      | none => exact h
      | some sr =>
        rw [cleanStore_iff] at h ⊢
        intro sr2 hsr2 o2 ho2
        rcases List.mem_or_eq_of_mem_set hsr2 with hmem | heq
        · exact h sr2 hmem o2 ho2
        · subst heq
          unfold scopeInsert at ho2
          split at ho2
          · exact h sr (List.get?_mem hget) o2 ho2
          · rcases List.mem_append.mp ho2 with hmem2 | hmem2
            · exact h sr (List.get?_mem hget) o2 hmem2
            · rw [List.mem_singleton] at hmem2
              subst hmem2
              constructor
              · intro hn
                exact h1 (by simp [hn])
              · rintro ⟨hk, hn⟩
                exact h2 (by simp [hk, hn])

/-- `insertToScope` keeps the store well-formed (outer pointers untouched). -/
theorem wfStore_insert (st : Store) (i : Nat) (o : Obj) (h : wfStore st = true) :
    wfStore (insertToScope st i o) = true := by
  rw [wfStore_iff] at h ⊢
  intro j sr2 hget2 out hout
  by_cases hji : j = i
  · subst hji
    unfold insertToScope storeInsert at hget2
    split at hget2
    · exact h j sr2 hget2 out hout
    · split at hget2
      · exact h j sr2 hget2 out hout
      · split at hget2
        · next sr hget =>
          have hi : j < st.length := by
            by_contra hge
            rw [List.get?_eq_none.mpr (by omega)] at hget
            cases hget
          rw [List.get?_set_eq_of_lt _ hi] at hget2
          cases hget2
          have houter : sr.outer = some out := by
            unfold scopeInsert at hout
            split at hout <;> exact hout
          exact h j sr hget out houter
        · exact h j sr2 hget2 out hout
  · rw [insertToScope_get_ne st i o j hji] at hget2
    exact h j sr2 hget2 out hout

/-- `ExtsP` is reflexive. -/
theorem extsP_refl (a : SW) : ExtsP a a :=
  ⟨le_refl _, fun _ _ => rfl, id, id, ⟨[], by simp⟩⟩

/-- `ExtsP` composes. -/
theorem extsP_trans {a b c : SW} (h1 : ExtsP a b) (h2 : ExtsP b c) : ExtsP a c := by
  refine ⟨le_trans h1.len h2.len, ?_, fun h => h2.clean (h1.clean h),
    fun h => h2.wf (h1.wf h), ?_⟩
  · intro j hj
    rw [h2.get j (lt_of_lt_of_le hj h1.len), h1.get j hj]
  · obtain ⟨d1, e1⟩ := h1.tr
    obtain ⟨d2, e2⟩ := h2.tr
    exact ⟨d1 ++ d2, by rw [e2, e1, List.append_assoc]⟩

/-- `ExtsFP` is reflexive. -/
theorem extsFP_refl (i : Nat) (a : SW) : ExtsFP i a a :=
  ⟨le_refl _, fun _ _ _ => rfl, id, id, ⟨[], by simp⟩⟩

/-- `ExtsFP` composes. -/
theorem extsFP_trans {i : Nat} {a b c : SW} (h1 : ExtsFP i a b) (h2 : ExtsFP i b c) :
    ExtsFP i a c := by
  refine ⟨le_trans h1.len h2.len, ?_, fun h => h2.clean (h1.clean h),
    fun h => h2.wf (h1.wf h), ?_⟩
  · intro j hj hne
    rw [h2.get j (lt_of_lt_of_le hj h1.len) hne, h1.get j hj hne]
  · obtain ⟨d1, e1⟩ := h1.tr
    obtain ⟨d2, e2⟩ := h2.tr
    exact ⟨d1 ++ d2, by rw [e2, e1, List.append_assoc]⟩

/-- An `ExtsP` step is in particular an `ExtsFP` step. -/
theorem extsP_to_extsFP {a b : SW} (i : Nat) (h : ExtsP a b) : ExtsFP i a b :=
  ⟨h.len, fun j hj _ => h.get j hj, h.clean, h.wf, h.tr⟩

/-- Following an `ExtsP` step by an `ExtsFP` step into a scope the first
state does not even have yields an `ExtsP` step. -/
theorem extsP_trans_extsFP {a b c : SW} {i : Nat} (h1 : ExtsP a b) (h2 : ExtsFP i b c)
    (hi : a.store.length ≤ i) : ExtsP a c := by
  refine ⟨le_trans h1.len h2.len, ?_, fun h => h2.clean (h1.clean h),
    fun h => h2.wf (h1.wf h), ?_⟩
  · intro j hj
    rw [h2.get j (lt_of_lt_of_le hj h1.len) (by omega), h1.get j hj]
  · obtain ⟨d1, e1⟩ := h1.tr
    obtain ⟨d2, e2⟩ := h2.tr
    exact ⟨d1 ++ d2, by rw [e2, e1, List.append_assoc]⟩

/-- Appending a visitor event only extends the trace. -/
theorem extsP_visit (a : SW) (ev : Event) : ExtsP a { a with tr := a.tr ++ [ev] } :=
  ⟨le_refl _, fun _ _ => rfl, id, id, ⟨[ev], rfl⟩⟩

/-- Opening a fresh scope on a valid outer index is an `ExtsP` step. -/
theorem extsP_push (a : SW) (sc : Nat) (hsc : sc < a.store.length) :
    ExtsP a { a with store := pushScope a.store sc } := by
  refine ⟨?_, ?_, cleanStore_push _ _, wfStore_push _ _ hsc, ⟨[], by simp⟩⟩
  · rw [pushScope_length]
    omega
  · intro j hj
    exact pushScope_get _ _ _ hj

/-- Inserting into scope `i` is an `ExtsFP i` step. -/
theorem extsFP_insert (a : SW) (i : Nat) (o : Obj) :
    ExtsFP i a { a with store := insertToScope a.store i o } := by
  refine ⟨?_, ?_, cleanStore_insert _ _ _, wfStore_insert _ _ _, ⟨[], by simp⟩⟩
  · rw [insertToScope_length]
  · intro j _ hne
    exact insertToScope_get_ne _ _ _ _ hne

/-- Inserting into a scope beyond the baseline store keeps an `ExtsP` step. -/
theorem extsP_insert_ge {a b : SW} (h : ExtsP a b) (i : Nat) (o : Obj)
    (hi : a.store.length ≤ i) : ExtsP a { b with store := insertToScope b.store i o } :=
  extsP_trans_extsFP h (extsFP_insert b i o) hi

/-- Folding walker insertions into scope `i` is an `ExtsFP i` step. -/
theorem extsFP_foldInsert (a : SW) (i : Nat) (names : List Obj) :
    ExtsFP i a { a with store := names.foldl (fun acc o => insertToScope acc i o) a.store } := by
  induction names generalizing a with
  | nil => exact extsFP_refl i a
  | cons o tl ih =>
    have h1 := extsFP_insert a i o
    have h2 := ih { a with store := insertToScope a.store i o }
    simpa [List.foldl_cons] using extsFP_trans h1 h2

/-- Folding walker insertions into a scope beyond the baseline keeps an
`ExtsP` step. -/
theorem extsP_foldInsert_ge {a b : SW} (h : ExtsP a b) (i : Nat) (names : List Obj)
    (hi : a.store.length ≤ i) :
    ExtsP a { b with store := names.foldl (fun acc o => insertToScope acc i o) b.store } :=
  extsP_trans_extsFP h (extsFP_foldInsert b i names) hi

/-- `insertIdents` into a scope beyond the baseline keeps an `ExtsP` step. -/
theorem extsP_insertIdents_ge {a b : SW} (h : ExtsP a b) (i : Nat) (lhs : List GExpr)
    (hi : a.store.length ≤ i) : ExtsP a { b with store := insertIdents b.store i lhs } := by
  induction lhs generalizing b with
  | nil => simpa [insertIdents] using h
  | cons e tl ih =>
    cases e with
    | eident o =>
      have h2 := ih (extsP_insert_ge h i o hi)
      simpa [insertIdents, List.foldl_cons] using h2
    | ebasic => simpa [insertIdents, List.foldl_cons] using ih h
    | eellipsis elt => simpa [insertIdents, List.foldl_cons] using ih h
    | efunclit p r b2 => simpa [insertIdents, List.foldl_cons] using ih h
    | ebad => simpa [insertIdents, List.foldl_cons] using ih h
    | eparen x => simpa [insertIdents, List.foldl_cons] using ih h
    | esel x sel => simpa [insertIdents, List.foldl_cons] using ih h
    | eindex x idx => simpa [insertIdents, List.foldl_cons] using ih h
    | eslice x lo hi2 => simpa [insertIdents, List.foldl_cons] using ih h
    | etypeassert x ty => simpa [insertIdents, List.foldl_cons] using ih h
    | ecall fn args => simpa [insertIdents, List.foldl_cons] using ih h
    | estar x => simpa [insertIdents, List.foldl_cons] using ih h
    | eunary x => simpa [insertIdents, List.foldl_cons] using ih h
    | ebinary x y => simpa [insertIdents, List.foldl_cons] using ih h
    | ekv k v => simpa [insertIdents, List.foldl_cons] using ih h

/-- `insertIdents` keeps the store length. -/
theorem insertIdents_length (st : Store) (i : Nat) (lhs : List GExpr) :
    (insertIdents st i lhs).length = st.length := by
  induction lhs generalizing st with
  | nil => simp [insertIdents]
  | cons e tl ih =>
    cases e with
    | eident o =>
      rw [show insertIdents st i (GExpr.eident o :: tl) = insertIdents (insertToScope st i o) i tl from rfl,
        ih, insertToScope_length]
    | ebasic => exact ih st
    | eellipsis elt => exact ih st
    | efunclit p r b2 => exact ih st
    | ebad => exact ih st
    | eparen x => exact ih st
    | esel x sel => exact ih st
    | eindex x idx => exact ih st
    | eslice x lo hi2 => exact ih st
    | etypeassert x ty => exact ih st
    | ecall fn args => exact ih st
    | estar x => exact ih st
    | eunary x => exact ih st
    | ebinary x y => exact ih st
    | ekv k v => exact ih st

/-- `exitScopesAux` never touches the store. -/
theorem exitScopesAux_store (fuel : Nat) (s : SW) (inner limit : Nat) :
    (exitScopesAux s fuel inner limit).store = s.store := by
  induction fuel generalizing s inner with
  | zero => rfl
  | succ f ih =>
    unfold exitScopesAux
    split
    · rfl
    · split
      · rfl
      · split
        · exact ih _ _
        · rfl

/-- `exitScopesAux` only appends exit events. -/
theorem exitScopesAux_tr (fuel : Nat) (s : SW) (inner limit : Nat) :
    ∃ Δ, (exitScopesAux s fuel inner limit).tr = s.tr ++ Δ := by
  induction fuel generalizing s inner with
  | zero => exact ⟨[], by simp [exitScopesAux]⟩
  | succ f ih =>
    unfold exitScopesAux
    split
    · exact ⟨[], by simp⟩
    · split
      · exact ⟨[], by simp⟩
      · split
        · next sr _ out _ =>
          obtain ⟨Δ, hΔ⟩ := ih { s with tr := s.tr ++ [Event.exitScope inner] } out
          exact ⟨Event.exitScope inner :: Δ, by rw [hΔ]; simp⟩
        · exact ⟨[Event.exitScope inner], rfl⟩

/-- Exiting scopes is an `ExtsP` step. -/
theorem extsP_exit (s : SW) (inner limit : Nat) : ExtsP s (exitScopes s inner limit) := by
  unfold exitScopes
  have hst := exitScopesAux_store s.store.length s inner limit
  obtain ⟨Δ, htr⟩ := exitScopesAux_tr s.store.length s inner limit
  exact ⟨by rw [hst], fun j hj => by rw [hst], fun h => by rw [hst]; exact h,
    fun h => by rw [hst]; exact h, ⟨Δ, htr⟩⟩

/-- Packaging of one `WalkStmt` conclusion: an `ExtsP` chain from the
post-visit state and the returned-scope bound give the full statement. -/
theorem stmt_concl {s : SW} {ev : Event} {R : SW × Nat}
    (hE : ExtsP { s with tr := s.tr ++ [ev] } R.1) (hb : R.2 < R.1.store.length) :
    (ExtsP s R.1 ∧ R.2 < R.1.store.length) ∧ ∃ Δ, R.1.tr = s.tr ++ ev :: Δ := by
  obtain ⟨Δ, hΔ⟩ := hE.tr
  refine ⟨⟨⟨hE.len, hE.get, hE.clean, hE.wf, ⟨ev :: Δ, by rw [hΔ]; simp⟩⟩, hb⟩,
    ⟨Δ, by rw [hΔ]; simp⟩⟩

/-- Packaging of one `WalkExpr` conclusion. -/
theorem expr_concl {s : SW} {ev : Event} {X : SW}
    (hE : ExtsP { s with tr := s.tr ++ [ev] } X) :
    ExtsP s X ∧ ∃ Δ, X.tr = s.tr ++ ev :: Δ := by
  obtain ⟨Δ, hΔ⟩ := hE.tr
  exact ⟨⟨hE.len, hE.get, hE.clean, hE.wf, ⟨ev :: Δ, by rw [hΔ]; simp⟩⟩,
    ⟨Δ, by rw [hΔ]; simp⟩⟩

/-- Length of a fold of walker insertions. -/
theorem foldInsert_length (st : Store) (i : Nat) (names : List Obj) :
    (names.foldl (fun acc o => insertToScope acc i o) st).length = st.length := by
  induction names generalizing st with
  | nil => rfl
  | cons o tl ih => rw [List.foldl_cons, ih, insertToScope_length]

/-- Exiting scopes after an `ExtsP` chain keeps the chain. -/
theorem extsP_trans_exit {a b : SW} (h : ExtsP a b) (inner limit : Nat) :
    ExtsP a (exitScopes b inner limit) :=
  extsP_trans h (extsP_exit b inner limit)

/-- The conditional key insertion of a defining range loop keeps an `ExtsP`
step into a fresh scope. -/
theorem extsP_insertKey_ge {a b : SW} (h : ExtsP a b) (i : Nat) (key : GExpr)
    (hi : a.store.length ≤ i) :
    ExtsP a { b with store :=
      (match key with | .eident o => insertToScope b.store i o | _ => b.store) } := by
  cases key with
  | eident o => exact extsP_insert_ge h i o hi
  | ebasic => exact h
  | eellipsis elt => exact h
  | efunclit p r b2 => exact h
  | ebad => exact h
  | eparen x => exact h
  | esel x sel => exact h
  | eindex x idx => exact h
  | eslice x lo hi2 => exact h
  | etypeassert x ty => exact h
  | ecall fn args => exact h
  | estar x => exact h
  | eunary x => exact h
  | ebinary x y => exact h
  | ekv k v => exact h

/-- The conditional value insertion of a defining range loop keeps an
`ExtsP` step into a fresh scope. -/
theorem extsP_insertVal_ge {a b : SW} (h : ExtsP a b) (i : Nat) (val : Option GExpr)
    (hi : a.store.length ≤ i) :
    ExtsP a { b with store :=
      (match val with
       | some (.eident o) => insertToScope b.store i o
       | _ => b.store) } := by
  cases val with
  | none => exact h
  | some e =>
    cases e with
    | eident o => exact extsP_insert_ge h i o hi
    | ebasic => exact h
    | eellipsis elt => exact h
    | efunclit p r b2 => exact h
    | ebad => exact h
    | eparen x => exact h
    | esel x sel => exact h
    | eindex x idx => exact h
    | eslice x lo hi2 => exact h
    | etypeassert x ty => exact h
    | ecall fn args => exact h
    | estar x => exact h
    | eunary x => exact h
    | ebinary x y => exact h
    | ekv k v => exact h

mutual
/-- Every expression walk is an `ExtsP` step whose trace starts with the
expression's own visit event. -/
theorem walkExpr_exts (s : SW) (e : GExpr) (sc : Nat) (hsc : sc < s.store.length) :
    ExtsP s (walkExpr s e sc) ∧
    ∃ Δ, (walkExpr s e sc).tr = s.tr ++ Event.visitExpr s.store sc e :: Δ := by
  cases e with
  | eident o => exact expr_concl (extsP_refl _)
  | ebasic => exact expr_concl (extsP_refl _)
  | ebad => exact expr_concl (extsP_refl _)
  | eellipsis elt =>
    exact expr_concl (walkExprOpt_exts
      ⟨s.store, s.tr ++ [Event.visitExpr s.store sc (.eellipsis elt)]⟩ elt sc hsc)
  | efunclit params results body =>
    have h2 := extsP_push
      ⟨s.store, s.tr ++ [Event.visitExpr s.store sc (.efunclit params results body)]⟩ sc hsc
    have hns2 : s.store.length <
        (⟨pushScope s.store sc,
          s.tr ++ [Event.visitExpr s.store sc (.efunclit params results body)]⟩ : SW).store.length := by
      show s.store.length < (pushScope s.store sc).length
      rw [pushScope_length]
      omega
    have h3 := walkFields_exts
      ⟨pushScope s.store sc,
        s.tr ++ [Event.visitExpr s.store sc (.efunclit params results body)]⟩
      params s.store.length hns2
    have h4 := walkFields_exts _ results s.store.length (lt_of_lt_of_le hns2 h3.len)
    have h5 := (walkStmt_exts _ body s.store.length
      (lt_of_lt_of_le (lt_of_lt_of_le hns2 h3.len) h4.len)).1.1
    have hA := extsP_trans_extsFP h2 h3 (le_refl _)
    have hB := extsP_trans_extsFP hA h4 (le_refl _)
    have hC := extsP_trans hB h5
    exact expr_concl (extsP_trans hC (extsP_visit _ _))
  | eparen x =>
    exact expr_concl (walkExpr_exts
      ⟨s.store, s.tr ++ [Event.visitExpr s.store sc (.eparen x)]⟩ x sc hsc).1
  | esel x sel =>
    have h1 := (walkExpr_exts
      ⟨s.store, s.tr ++ [Event.visitExpr s.store sc (.esel x sel)]⟩ x sc hsc).1
    have h2 := (walkExpr_exts _ sel sc (lt_of_lt_of_le hsc h1.len)).1
    exact expr_concl (extsP_trans h1 h2)
  | eindex x idx =>
    have h1 := (walkExpr_exts
      ⟨s.store, s.tr ++ [Event.visitExpr s.store sc (.eindex x idx)]⟩ x sc hsc).1
    have h2 := (walkExpr_exts _ idx sc (lt_of_lt_of_le hsc h1.len)).1
    exact expr_concl (extsP_trans h1 h2)
  | eslice x lo hi =>
    have h1 := (walkExpr_exts
      ⟨s.store, s.tr ++ [Event.visitExpr s.store sc (.eslice x lo hi)]⟩ x sc hsc).1
    have h2 := walkExprOpt_exts _ lo sc (lt_of_lt_of_le hsc h1.len)
    have h3 := walkExprOpt_exts _ hi sc (lt_of_lt_of_le (lt_of_lt_of_le hsc h1.len) h2.len)
    exact expr_concl (extsP_trans h1 (extsP_trans h2 h3))
  | etypeassert x ty =>
    have h1 := (walkExpr_exts
      ⟨s.store, s.tr ++ [Event.visitExpr s.store sc (.etypeassert x ty)]⟩ x sc hsc).1
    have h2 := walkExprOpt_exts _ ty sc (lt_of_lt_of_le hsc h1.len)
    exact expr_concl (extsP_trans h1 h2)
  | ecall fn args =>
    have h1 := (walkExpr_exts
      ⟨s.store, s.tr ++ [Event.visitExpr s.store sc (.ecall fn args)]⟩ fn sc hsc).1
    have h2 := walkExprList_exts _ args sc (lt_of_lt_of_le hsc h1.len)
    exact expr_concl (extsP_trans h1 h2)
  | estar x =>
    exact expr_concl (walkExpr_exts
      ⟨s.store, s.tr ++ [Event.visitExpr s.store sc (.estar x)]⟩ x sc hsc).1
  | eunary x =>
    exact expr_concl (walkExpr_exts
      ⟨s.store, s.tr ++ [Event.visitExpr s.store sc (.eunary x)]⟩ x sc hsc).1
  | ebinary x y =>
    have h1 := (walkExpr_exts
      ⟨s.store, s.tr ++ [Event.visitExpr s.store sc (.ebinary x y)]⟩ x sc hsc).1
    have h2 := (walkExpr_exts _ y sc (lt_of_lt_of_le hsc h1.len)).1
    exact expr_concl (extsP_trans h1 h2)
  | ekv k v =>
    have h1 := (walkExpr_exts
      ⟨s.store, s.tr ++ [Event.visitExpr s.store sc (.ekv k v)]⟩ k sc hsc).1
    have h2 := (walkExpr_exts _ v sc (lt_of_lt_of_le hsc h1.len)).1
    exact expr_concl (extsP_trans h1 h2)

/-- Walking a nilable expression is an `ExtsP` step. -/
theorem walkExprOpt_exts (s : SW) (o : Option GExpr) (sc : Nat) (hsc : sc < s.store.length) :
    ExtsP s (walkExprOpt s o sc) := by
  cases o with
  | none => exact extsP_refl s
  | some e => exact (walkExpr_exts s e sc hsc).1

/-- Walking an expression list is an `ExtsP` step. -/
theorem walkExprList_exts (s : SW) (es : List GExpr) (sc : Nat) (hsc : sc < s.store.length) :
    ExtsP s (walkExprList s es sc) := by
  cases es with
  | nil => exact extsP_refl s
  | cons e tl =>
    have h1 := (walkExpr_exts s e sc hsc).1
    have h2 := walkExprList_exts _ tl sc (lt_of_lt_of_le hsc h1.len)
    exact extsP_trans h1 h2

/-- Walking fields is an `ExtsFP` step into the populated scope. -/
theorem walkFields_exts (s : SW) (fs : List GField) (sc : Nat) (hsc : sc < s.store.length) :
    ExtsFP sc s (walkFields s fs sc) := by
  cases fs with
  | nil => exact extsFP_refl sc s
  | cons f tl =>
    cases f with
    | fmk names ty =>
      have h2 := extsFP_foldInsert s sc names
      have h3 := (walkExpr_exts _ ty sc (lt_of_lt_of_le hsc h2.len)).1
      have h4 := walkFields_exts _ tl sc
        (lt_of_lt_of_le (lt_of_lt_of_le hsc h2.len) h3.len)
      exact extsFP_trans h2 (extsFP_trans (extsP_to_extsFP sc h3) h4)

/-- Every statement walk is an `ExtsP` step returning a valid scope, and its
trace starts with the statement's own visit event. -/
theorem walkStmt_exts (s : SW) (stm : GStmt) (sc : Nat) (hsc : sc < s.store.length) :
    (ExtsP s (walkStmt s stm sc).1 ∧
      (walkStmt s stm sc).2 < (walkStmt s stm sc).1.store.length) ∧
    ∃ Δ, (walkStmt s stm sc).1.tr = s.tr ++ Event.visitStmt s.store sc stm :: Δ := by
  cases stm with
  | sexpr x =>
    have h1 := (walkExpr_exts
      ⟨s.store, s.tr ++ [Event.visitStmt s.store sc (.sexpr x)]⟩ x sc hsc).1
    exact stmt_concl h1 (lt_of_lt_of_le hsc h1.len)
  | sincdec x =>
    have h1 := (walkExpr_exts
      ⟨s.store, s.tr ++ [Event.visitStmt s.store sc (.sincdec x)]⟩ x sc hsc).1
    exact stmt_concl h1 (lt_of_lt_of_le hsc h1.len)
  | sret results =>
    have h1 := walkExprList_exts
      ⟨s.store, s.tr ++ [Event.visitStmt s.store sc (.sret results)]⟩ results sc hsc
    exact stmt_concl h1 (lt_of_lt_of_le hsc h1.len)
  | sassign define lhs rhs =>
    cases define with
    | false =>
      have h1 := walkExprList_exts
        ⟨s.store, s.tr ++ [Event.visitStmt s.store sc (.sassign false lhs rhs)]⟩ lhs sc hsc
      have h2 := walkExprList_exts _ rhs sc (lt_of_lt_of_le hsc h1.len)
      have h := extsP_trans h1 h2
      exact stmt_concl h (lt_of_lt_of_le hsc h.len)
    | true =>
      have h2 := extsP_push
        ⟨s.store, s.tr ++ [Event.visitStmt s.store sc (.sassign true lhs rhs)]⟩ sc hsc
      have h3 := walkExprList_exts
        ⟨pushScope s.store sc, s.tr ++ [Event.visitStmt s.store sc (.sassign true lhs rhs)]⟩
        rhs sc (lt_of_lt_of_le hsc h2.len)
      have h4 := extsP_insertIdents_ge (extsP_trans h2 h3) s.store.length lhs (le_refl _)
      have h3l : (pushScope s.store sc).length ≤
          (walkExprList ⟨pushScope s.store sc,
            s.tr ++ [Event.visitStmt s.store sc (.sassign true lhs rhs)]⟩ rhs sc).store.length :=
        h3.len
      rw [pushScope_length] at h3l
      have hlen : s.store.length <
          (insertIdents (walkExprList ⟨pushScope s.store sc,
            s.tr ++ [Event.visitStmt s.store sc (.sassign true lhs rhs)]⟩ rhs sc).store
            s.store.length lhs).length := by
        rw [insertIdents_length]
        omega
      exact stmt_concl h4 hlen
  | sdecl specs =>
    have h := walkSpecs_exts
      ⟨s.store, s.tr ++ [Event.visitStmt s.store sc (.sdecl specs)]⟩ specs sc sc hsc hsc
    exact stmt_concl h.1 h.2
  | ssend ch val =>
    have h1 := (walkExpr_exts
      ⟨s.store, s.tr ++ [Event.visitStmt s.store sc (.ssend ch val)]⟩ ch sc hsc).1
    have h2 := (walkExpr_exts _ val sc (lt_of_lt_of_le hsc h1.len)).1
    have h := extsP_trans h1 h2
    exact stmt_concl h (lt_of_lt_of_le hsc h.len)
  | sdefer call =>
    have h1 := (walkExpr_exts
      ⟨s.store, s.tr ++ [Event.visitStmt s.store sc (.sdefer call)]⟩ call sc hsc).1
    exact stmt_concl h1 (lt_of_lt_of_le hsc h1.len)
  | sgo call =>
    have h1 := (walkExpr_exts
      ⟨s.store, s.tr ++ [Event.visitStmt s.store sc (.sgo call)]⟩ call sc hsc).1
    exact stmt_concl h1 (lt_of_lt_of_le hsc h1.len)
  | slabeled stm1 =>
    have h1 := (walkStmt_exts
      ⟨s.store, s.tr ++ [Event.visitStmt s.store sc (.slabeled stm1)]⟩ stm1 sc hsc).1.1
    exact stmt_concl h1 (lt_of_lt_of_le hsc h1.len)
  | sbranch => exact stmt_concl (extsP_refl _) hsc
  | sif init cond body els =>
    have hI := walkStmtOpt_exts
      ⟨s.store, s.tr ++ [Event.visitStmt s.store sc (.sif init cond body els)]⟩ init sc hsc
    have h3 := (walkExpr_exts _ cond sc (lt_of_lt_of_le hsc hI.1.len)).1
    have h4 := (walkStmt_exts _ body _ (lt_of_lt_of_le hI.2 h3.len)).1.1
    have h5 := (walkStmtOpt_exts _ els _
      (lt_of_lt_of_le hI.2 (le_trans h3.len h4.len))).1
    have hchain := extsP_trans hI.1 (extsP_trans h3 (extsP_trans h4 h5))
    exact stmt_concl (extsP_trans_exit hchain _ _)
      (lt_of_lt_of_le hsc (extsP_trans_exit hchain _ _).len)
  | sfor init cond post body =>
    have hI := walkStmtOpt_exts
      ⟨s.store, s.tr ++ [Event.visitStmt s.store sc (.sfor init cond post body)]⟩ init sc hsc
    have h3 := walkExprOpt_exts _ cond sc (lt_of_lt_of_le hsc hI.1.len)
    have h4 := (walkStmtOpt_exts _ post sc
      (lt_of_lt_of_le hsc (le_trans hI.1.len h3.len))).1
    have h5 := (walkStmt_exts _ body sc
      (lt_of_lt_of_le hsc (le_trans (le_trans hI.1.len h3.len) h4.len))).1.1
    have hchain := extsP_trans hI.1 (extsP_trans h3 (extsP_trans h4 h5))
    exact stmt_concl (extsP_trans_exit hchain _ _)
      (lt_of_lt_of_le hsc (extsP_trans_exit hchain _ _).len)
  | srange define key val body =>
    cases define with
    | false =>
      have h2 := (walkExpr_exts
        ⟨s.store, s.tr ++ [Event.visitStmt s.store sc (.srange false key val body)]⟩
        key sc hsc).1
      have h3 := walkExprOpt_exts _ val sc (lt_of_lt_of_le hsc h2.len)
      have h4 := (walkStmt_exts _ body sc
        (lt_of_lt_of_le hsc (le_trans h2.len h3.len))).1.1
      have hchain := extsP_trans h2 (extsP_trans h3 h4)
      exact stmt_concl (extsP_trans_exit hchain _ _)
        (lt_of_lt_of_le hsc (extsP_trans_exit hchain _ _).len)
    | true =>
      have h2 := extsP_push
        ⟨s.store, s.tr ++ [Event.visitStmt s.store sc (.srange true key val body)]⟩ sc hsc
      have h3 := extsP_insertKey_ge h2 s.store.length key (le_refl _)
      have h4 := extsP_insertVal_ge h3 s.store.length val (le_refl _)
      have h5 := (walkStmt_exts _ body sc (lt_of_lt_of_le hsc h4.len)).1.1
      have hchain := extsP_trans h4 h5
      exact stmt_concl (extsP_trans_exit hchain _ _)
        (lt_of_lt_of_le hsc (extsP_trans_exit hchain _ _).len)
  | scase exprs body =>
    have h2 := extsP_push
      ⟨s.store, s.tr ++ [Event.visitStmt s.store sc (.scase exprs body)]⟩ sc hsc
    have h3 := walkExprList_exts
      ⟨pushScope s.store sc, s.tr ++ [Event.visitStmt s.store sc (.scase exprs body)]⟩
      exprs sc (lt_of_lt_of_le hsc h2.len)
    have h3l : (pushScope s.store sc).length ≤
        (walkExprList ⟨pushScope s.store sc,
          s.tr ++ [Event.visitStmt s.store sc (.scase exprs body)]⟩ exprs sc).store.length :=
      h3.len
    rw [pushScope_length] at h3l
    have hns3 : s.store.length <
        (walkExprList ⟨pushScope s.store sc,
          s.tr ++ [Event.visitStmt s.store sc (.scase exprs body)]⟩ exprs sc).store.length := by
      omega
    have h4 := walkStmts_exts _ body s.store.length hns3
    have hchain := extsP_trans h2 (extsP_trans h3 h4.1)
    exact stmt_concl (extsP_trans_exit hchain _ _)
      (lt_of_lt_of_le hsc (extsP_trans_exit hchain _ _).len)
  | sswitch init tag body =>
    have hI := walkStmtOpt_exts
      ⟨s.store, s.tr ++ [Event.visitStmt s.store sc (.sswitch init tag body)]⟩ init sc hsc
    have h3 := walkExprOpt_exts _ tag sc (lt_of_lt_of_le hsc hI.1.len)
    have h4 := (walkStmt_exts _ body _ (lt_of_lt_of_le hI.2 h3.len)).1.1
    have hchain := extsP_trans hI.1 (extsP_trans h3 h4)
    exact stmt_concl (extsP_trans_exit hchain _ _)
      (lt_of_lt_of_le hsc (extsP_trans_exit hchain _ _).len)
  | stypeswitch init assign body =>
    have hI := walkStmtOpt_exts
      ⟨s.store, s.tr ++ [Event.visitStmt s.store sc (.stypeswitch init assign body)]⟩
      init sc hsc
    have hA := (walkStmt_exts _ assign _ hI.2).1
    have h4 := (walkStmt_exts _ body _ hA.2).1.1
    have hchain := extsP_trans hI.1 (extsP_trans hA.1 h4)
    exact stmt_concl (extsP_trans_exit hchain _ _)
      (lt_of_lt_of_le hsc (extsP_trans_exit hchain _ _).len)
  | scomm comm body =>
    have hI := walkStmtOpt_exts
      ⟨s.store, s.tr ++ [Event.visitStmt s.store sc (.scomm comm body)]⟩ comm sc hsc
    have hB := walkStmts_exts _ body _ hI.2
    have hchain := extsP_trans hI.1 hB.1
    exact stmt_concl (extsP_trans_exit hchain _ _)
      (lt_of_lt_of_le hsc (extsP_trans_exit hchain _ _).len)
  | sselect body =>
    have h1 := (walkStmt_exts
      ⟨s.store, s.tr ++ [Event.visitStmt s.store sc (.sselect body)]⟩ body sc hsc).1.1
    exact stmt_concl h1 (lt_of_lt_of_le hsc h1.len)
  | sblock list =>
    have h2 := extsP_push
      ⟨s.store, s.tr ++ [Event.visitStmt s.store sc (.sblock list)]⟩ sc hsc
    have hns : s.store.length <
        (⟨pushScope s.store sc,
          s.tr ++ [Event.visitStmt s.store sc (.sblock list)]⟩ : SW).store.length := by
      show s.store.length < (pushScope s.store sc).length
      rw [pushScope_length]
      omega
    have h3 := walkStmts_exts
      ⟨pushScope s.store sc, s.tr ++ [Event.visitStmt s.store sc (.sblock list)]⟩
      list s.store.length hns
    have hchain := extsP_trans h2 h3.1
    exact stmt_concl (extsP_trans_exit hchain _ _)
      (lt_of_lt_of_le hsc (extsP_trans_exit hchain _ _).len)

/-- Walking a nilable statement is an `ExtsP` step returning a valid scope. -/
theorem walkStmtOpt_exts (s : SW) (o : Option GStmt) (sc : Nat) (hsc : sc < s.store.length) :
    ExtsP s (walkStmtOpt s o sc).1 ∧
    (walkStmtOpt s o sc).2 < (walkStmtOpt s o sc).1.store.length := by
  cases o with
  | none => exact ⟨extsP_refl s, hsc⟩
  | some stm => exact (walkStmt_exts s stm sc hsc).1

/-- Walking a statement list is an `ExtsP` step returning a valid scope. -/
theorem walkStmts_exts (s : SW) (l : List GStmt) (inner : Nat) (hin : inner < s.store.length) :
    ExtsP s (walkStmts s l inner).1 ∧
    (walkStmts s l inner).2 < (walkStmts s l inner).1.store.length := by
  cases l with
  | nil => exact ⟨extsP_refl s, hin⟩
  | cons stm tl =>
    have h1 := (walkStmt_exts s stm inner hin).1
    have h2 := walkStmts_exts _ tl _ h1.2
    exact ⟨extsP_trans h1.1 h2.1, h2.2⟩

/-- Walking declaration specs is an `ExtsP` step returning a valid scope. -/
theorem walkSpecs_exts (s : SW) (specs : List GSpec) (ns sc : Nat)
    (hns : ns < s.store.length) (hsc : sc < s.store.length) :
    ExtsP s (walkSpecs s specs ns sc).1 ∧
    (walkSpecs s specs ns sc).2 < (walkSpecs s specs ns sc).1.store.length := by
  cases specs with
  | nil => exact ⟨extsP_refl s, hns⟩
  | cons spec tl =>
    cases spec with
    | typeSpec name ty =>
      have h2 := extsP_push s ns hns
      have h3 := extsP_insert_ge h2 s.store.length name (le_refl _)
      have h4 := (walkExpr_exts _ ty sc (lt_of_lt_of_le hsc h3.len)).1
      have h3l : (insertToScope (pushScope s.store ns) s.store.length name).length =
          s.store.length + 1 := by
        rw [insertToScope_length, pushScope_length]
      have h4l : (insertToScope (pushScope s.store ns) s.store.length name).length ≤
          (walkExpr ⟨insertToScope (pushScope s.store ns) s.store.length name, s.tr⟩
            ty sc).store.length := h4.len
      have hns2 : s.store.length <
          (walkExpr ⟨insertToScope (pushScope s.store ns) s.store.length name, s.tr⟩
            ty sc).store.length := by
        omega
      have hsc4 : sc <
          (walkExpr ⟨insertToScope (pushScope s.store ns) s.store.length name, s.tr⟩
            ty sc).store.length := by
        omega
      have hrec := walkSpecs_exts _ tl _ sc hns2 hsc4
      exact ⟨extsP_trans h3 (extsP_trans h4 hrec.1), hrec.2⟩
    | valueSpec names values =>
      have h2 := extsP_push s ns hns
      have h3 := extsP_foldInsert_ge h2 s.store.length names (le_refl _)
      have h4 := walkExprList_exts _ values sc (lt_of_lt_of_le hsc h3.len)
      have h3l : (names.foldl (fun acc o => insertToScope acc s.store.length o)
          (pushScope s.store ns)).length = s.store.length + 1 := by
        rw [foldInsert_length, pushScope_length]
      have h4l : (names.foldl (fun acc o => insertToScope acc s.store.length o)
          (pushScope s.store ns)).length ≤
          (walkExprList ⟨names.foldl (fun acc o => insertToScope acc s.store.length o)
            (pushScope s.store ns), s.tr⟩ values sc).store.length := h4.len
      have hns2 : s.store.length <
          (walkExprList ⟨names.foldl (fun acc o => insertToScope acc s.store.length o)
            (pushScope s.store ns), s.tr⟩ values sc).store.length := by
        omega
      have hsc4 : sc <
          (walkExprList ⟨names.foldl (fun acc o => insertToScope acc s.store.length o)
            (pushScope s.store ns), s.tr⟩ values sc).store.length := by
        omega
      have hrec := walkSpecs_exts _ tl _ sc hns2 hsc4
      exact ⟨extsP_trans h3 (extsP_trans h4 hrec.1), hrec.2⟩
end

/-- `tempVar` succeeds immediately on a free candidate below the bound. -/
theorem tempVar_free (isBound : String → Bool) (stem : String) (i : Nat)
    (hi : i < 10 * 1000) (hb : isBound (stem ++ toString i) = false) :
    tempVar isBound stem i = some (stem ++ toString i, i + 1) := by
  rw [tempVar]
  simp [hi, hb]

/-- Chain lookup only reads the scopes on the outer chain of its start; on a
well-formed store that chain stays below the start index, so any store that
agrees on an initial segment containing the start resolves names
identically. -/
theorem lookupChainF_agree (st st2 : Store) (hwf : wfStore st = true)
    (hpre : ∀ j, j < st.length → st2.get? j = st.get? j) :
    ∀ fuel sc, sc < st.length → ∀ n,
      lookupChainF st2 fuel sc n = lookupChainF st fuel sc n := by
  intro fuel
  induction fuel with
  | zero => intro sc hsc n; rfl
  | succ f ih =>
    intro sc hsc n
    simp only [lookupChainF]
    rw [hpre sc hsc]
    cases hget : st.get? sc with
    | none => rfl
    | some sr =>
      show (match List.find? (fun o => o.name == n) sr.objects with
        | some o => some o
        | none =>
          match sr.outer with
          | some out => lookupChainF st2 f out n
          | none => none) =
        match List.find? (fun o => o.name == n) sr.objects with
        | some o => some o
        | none =>
          match sr.outer with
          | some out => lookupChainF st f out n
          | none => none
      cases hfind : List.find? (fun o => o.name == n) sr.objects with
      | some o => rfl
      | none =>
        show (match sr.outer with
          | some out => lookupChainF st2 f out n
          | none => none) =
          match sr.outer with
          | some out => lookupChainF st f out n
          | none => none
        cases hout : sr.outer with
        | none => rfl
        | some out =>
          have hlt : out < sc := (wfStore_iff st).mp hwf sc sr hget out hout
          exact ih out (lt_trans hlt hsc) n

/-- The conditional key insertion updates the target scope by `objsInsert`. -/
theorem keyInsert_get (st : Store) (i : Nat) (key : GExpr) (out : Option Nat)
    (obs : List Obj) (h : st.get? i = some ⟨out, obs⟩) :
    ((match key with | .eident o => insertToScope st i o | _ => st) : Store).get? i =
      some ⟨out, (match key with | .eident o => objsInsert obs o | _ => obs)⟩ := by
  cases key with
  | eident o => exact insertToScope_get_eq st i o out obs h
  | ebasic => exact h
  | eellipsis elt => exact h
  | efunclit p r b2 => exact h
  | ebad => exact h
  | eparen x => exact h
  | esel x sel => exact h
  | eindex x idx => exact h
  | eslice x lo hi2 => exact h
  | etypeassert x ty => exact h
  | ecall fn args => exact h
  | estar x => exact h
  | eunary x => exact h
  | ebinary x y => exact h
  | ekv k v => exact h

/-- The conditional key insertion leaves every other scope unchanged. -/
theorem keyInsert_get_ne (st : Store) (i : Nat) (key : GExpr) (j : Nat) (hne : j ≠ i) :
    ((match key with | .eident o => insertToScope st i o | _ => st) : Store).get? j =
      st.get? j := by
  cases key with
  | eident o => exact insertToScope_get_ne st i o j hne
  | ebasic => rfl
  | eellipsis elt => rfl
  | efunclit p r b2 => rfl
  | ebad => rfl
  | eparen x => rfl
  | esel x sel => rfl
  | eindex x idx => rfl
  | eslice x lo hi2 => rfl
  | etypeassert x ty => rfl
  | ecall fn args => rfl
  | estar x => rfl
  | eunary x => rfl
  | ebinary x y => rfl
  | ekv k v => rfl

/-- The conditional value insertion updates the target scope by
`objsInsert`. -/
theorem valInsert_get (st : Store) (i : Nat) (val : Option GExpr) (out : Option Nat)
    (obs : List Obj) (h : st.get? i = some ⟨out, obs⟩) :
    ((match val with | some (.eident o) => insertToScope st i o | _ => st) : Store).get? i =
      some ⟨out, (match val with | some (.eident o) => objsInsert obs o | _ => obs)⟩ := by
  cases val with
  | none => exact h
  | some e =>
    cases e with
    | eident o => exact insertToScope_get_eq st i o out obs h
    | ebasic => exact h
    | eellipsis elt => exact h
    | efunclit p r b2 => exact h
    | ebad => exact h
    | eparen x => exact h
    | esel x sel => exact h
    | eindex x idx => exact h
    | eslice x lo hi2 => exact h
    | etypeassert x ty => exact h
    | ecall fn args => exact h
    | estar x => exact h
    | eunary x => exact h
    | ebinary x y => exact h
    | ekv k v => exact h

/-- The conditional value insertion leaves every other scope unchanged. -/
theorem valInsert_get_ne (st : Store) (i : Nat) (val : Option GExpr) (j : Nat)
    (hne : j ≠ i) :
    ((match val with | some (.eident o) => insertToScope st i o | _ => st) : Store).get? j =
      st.get? j := by
  cases val with
  | none => rfl
  | some e =>
    cases e with
    | eident o => exact insertToScope_get_ne st i o j hne
    | ebasic => rfl
    | eellipsis elt => rfl
    | efunclit p r b2 => rfl
    | ebad => rfl
    | eparen x => rfl
    | esel x sel => rfl
    | eindex x idx => rfl
    | eslice x lo hi2 => rfl
    | etypeassert x ty => rfl
    | ecall fn args => rfl
    | estar x => rfl
    | eunary x => rfl
    | ebinary x y => rfl
    | ekv k v => rfl

/-- `insertIdents` builds the target scope by `identObjs`. -/
theorem insertIdents_get_eq (lhs : List GExpr) (st : Store) (i : Nat)
    (out : Option Nat) (obs : List Obj) (h : st.get? i = some ⟨out, obs⟩) :
    (insertIdents st i lhs).get? i = some ⟨out, identObjs obs lhs⟩ := by
  induction lhs generalizing st obs with
  | nil => exact h
  | cons e tl ih =>
    cases e with
    | eident o => exact ih _ _ (insertToScope_get_eq st i o out obs h)
    | ebasic => exact ih _ _ h
    | eellipsis elt => exact ih _ _ h
    | efunclit p r b2 => exact ih _ _ h
    | ebad => exact ih _ _ h
    | eparen x => exact ih _ _ h
    | esel x sel => exact ih _ _ h
    | eindex x idx => exact ih _ _ h
    | eslice x lo hi2 => exact ih _ _ h
    | etypeassert x ty => exact ih _ _ h
    | ecall fn args => exact ih _ _ h
    | estar x => exact ih _ _ h
    | eunary x => exact ih _ _ h
    | ebinary x y => exact ih _ _ h
    | ekv k v => exact ih _ _ h

/-- `insertIdents` leaves every other scope unchanged. -/
theorem insertIdents_get_ne (lhs : List GExpr) (st : Store) (i j : Nat) (hne : j ≠ i) :
    (insertIdents st i lhs).get? j = st.get? j := by
  induction lhs generalizing st with
  | nil => rfl
  | cons e tl ih =>
    cases e with
    | eident o => exact (ih (insertToScope st i o)).trans (insertToScope_get_ne st i o j hne)
    | ebasic => exact ih st
    | eellipsis elt => exact ih st
    | efunclit p r b2 => exact ih st
    | ebad => exact ih st
    | eparen x => exact ih st
    | esel x sel => exact ih st
    | eindex x idx => exact ih st
    | eslice x lo hi2 => exact ih st
    | etypeassert x ty => exact ih st
    | ecall fn args => exact ih st
    | estar x => exact ih st
    | eunary x => exact ih st
    | ebinary x y => exact ih st
    | ekv k v => exact ih st

/-- The conditional key insertion adds no scope. -/
theorem keyStore_length (st : Store) (sc : Nat) (key : GExpr) :
    ((match key with
      | GExpr.eident o => insertToScope (pushScope st sc) st.length o
      | _ => pushScope st sc) : Store).length = st.length + 1 := by
  cases key with
  | eident o => rw [insertToScope_length, pushScope_length]
  | ebasic => exact pushScope_length st sc
  | eellipsis elt => exact pushScope_length st sc
  | efunclit p r b2 => exact pushScope_length st sc
  | ebad => exact pushScope_length st sc
  | eparen x => exact pushScope_length st sc
  | esel x sel => exact pushScope_length st sc
  | eindex x idx => exact pushScope_length st sc
  | eslice x lo hi2 => exact pushScope_length st sc
  | etypeassert x ty => exact pushScope_length st sc
  | ecall fn args => exact pushScope_length st sc
  | estar x => exact pushScope_length st sc
  | eunary x => exact pushScope_length st sc
  | ebinary x y => exact pushScope_length st sc
  | ekv k v => exact pushScope_length st sc

/-- The range-statement store holds exactly one scope more than the input. -/
theorem rangeStore_length (st : Store) (sc : Nat) (key : GExpr) (val : Option GExpr) :
    (rangeStore st sc key val).length = st.length + 1 := by
  cases val with
  | none => exact keyStore_length st sc key
  | some e =>
    cases e with
    | eident o =>
      show (insertToScope (match key with
        | GExpr.eident o2 => insertToScope (pushScope st sc) st.length o2
        | _ => pushScope st sc) st.length o).length = st.length + 1
      rw [insertToScope_length]
      exact keyStore_length st sc key
    | ebasic => exact keyStore_length st sc key
    | eellipsis elt => exact keyStore_length st sc key
    | efunclit p r b2 => exact keyStore_length st sc key
    | ebad => exact keyStore_length st sc key
    | eparen x => exact keyStore_length st sc key
    | esel x sel => exact keyStore_length st sc key
    | eindex x idx => exact keyStore_length st sc key
    | eslice x lo hi2 => exact keyStore_length st sc key
    | etypeassert x ty => exact keyStore_length st sc key
    | ecall fn args => exact keyStore_length st sc key
    | estar x => exact keyStore_length st sc key
    | eunary x => exact keyStore_length st sc key
    | ebinary x y => exact keyStore_length st sc key
    | ekv k v => exact keyStore_length st sc key

/-- Every expression of a walked list is visited at the given scope, with a
store snapshot that still agrees with the starting store on all of its
scopes. -/
theorem walkExprList_mem_visit (s : SW) (es : List GExpr) (sc : Nat)
    (hsc : sc < s.store.length) (e : GExpr) (he : e ∈ es) :
    ∃ snap, Event.visitExpr snap sc e ∈ (walkExprList s es sc).tr ∧
      ∀ j, j < s.store.length → snap.get? j = s.store.get? j := by
  induction es generalizing s with
  | nil => cases he
  | cons e0 tl ih =>
    rcases List.mem_cons.mp he with heq | htl
    · subst heq
      refine ⟨s.store, ?_, fun j hj => rfl⟩
      have h1 := walkExpr_exts s e sc hsc
      rcases h1.2 with ⟨Δ, hΔ⟩
      rcases (walkExprList_exts (walkExpr s e sc) tl sc
        (lt_of_lt_of_le hsc h1.1.len)).tr with ⟨Δ2, hΔ2⟩
      show Event.visitExpr s.store sc e ∈ (walkExprList (walkExpr s e sc) tl sc).tr
      rw [hΔ2, hΔ]
      simp
    · have h1 := (walkExpr_exts s e0 sc hsc).1
      rcases ih (walkExpr s e0 sc) (lt_of_lt_of_le hsc h1.len) htl with
        ⟨snap, hmem, hpre⟩
      refine ⟨snap, hmem, ?_⟩
      intro j hj
      rw [hpre j (lt_of_lt_of_le hj h1.len), h1.get j hj]

/-- The top-level `GenDecl` walk of `WalkFile` is an `ExtsP` step. -/
theorem walkGenSpecs_exts (s : SW) (specs : List GSpec) (fsc : Nat)
    (hsc : fsc < s.store.length) : ExtsP s (walkGenSpecs s specs fsc) := by
  induction specs generalizing s with
  | nil => exact extsP_refl s
  | cons spec tl ih =>
    cases spec with
    | typeSpec name ty => exact ih s hsc
    | valueSpec names values =>
      have h1 := walkExprList_exts s values fsc hsc
      exact extsP_trans h1 (ih _ (lt_of_lt_of_le hsc h1.len))

/-- The declaration loop of `WalkFile` is an `ExtsP` step. -/
theorem walkDecls_exts (s : SW) (decls : List GDecl) (fsc : Nat)
    (hsc : fsc < s.store.length) : ExtsP s (walkDecls s decls fsc) := by
  induction decls generalizing s with
  | nil => exact extsP_refl s
  | cons d tl ih =>
    cases d with
    | genDecl specs =>
      have h1 := walkGenSpecs_exts s specs fsc hsc
      exact extsP_trans h1 (ih _ (lt_of_lt_of_le hsc h1.len))
    | funcDecl recv params body =>
      cases recv with
      | none =>
        have h2 := extsP_push s fsc hsc
        have hns : s.store.length <
            ((⟨pushScope s.store fsc, s.tr⟩ : SW)).store.length := by
          show s.store.length < (pushScope s.store fsc).length
          rw [pushScope_length]
          omega
        have h4 := walkFields_exts ⟨pushScope s.store fsc, s.tr⟩ params
          s.store.length hns
        have h5 := walkStmtOpt_exts _ body s.store.length (lt_of_lt_of_le hns h4.len)
        have hA := extsP_trans_extsFP h2 h4 (le_refl _)
        have hB := extsP_trans hA h5.1
        have hC := extsP_trans hB (extsP_visit _ (Event.exitScope s.store.length))
        exact extsP_trans hC (ih _ (lt_of_lt_of_le hsc hC.len))
      | some o =>
        have h2 := extsP_push s fsc hsc
        have h3 := extsP_insert_ge h2 s.store.length o (le_refl _)
        have hns : s.store.length <
            ((⟨insertToScope (pushScope s.store fsc) s.store.length o, s.tr⟩ : SW)).store.length := by
          show s.store.length <
            (insertToScope (pushScope s.store fsc) s.store.length o).length
          rw [insertToScope_length, pushScope_length]
          omega
        have h4 := walkFields_exts
          ⟨insertToScope (pushScope s.store fsc) s.store.length o, s.tr⟩ params
          s.store.length hns
        have h5 := walkStmtOpt_exts _ body s.store.length (lt_of_lt_of_le hns h4.len)
        have hA := extsP_trans_extsFP h3 h4 (le_refl _)
        have hB := extsP_trans hA h5.1
        have hC := extsP_trans hB (extsP_visit _ (Event.exitScope s.store.length))
        exact extsP_trans hC (ih _ (lt_of_lt_of_le hsc hC.len))

/-- The whole file walk is an `ExtsP` step: the store only grows, existing
scopes are untouched, cleanliness and well-formedness are preserved. -/
theorem walkFile_exts (s : SW) (decls : List GDecl) (fsc : Nat)
    (hsc : fsc < s.store.length) : ExtsP s (walkFile s decls fsc) :=
  extsP_trans (walkDecls_exts s decls fsc hsc) (extsP_visit _ _)

/-- The fresh scope of a range statement holds exactly the key/value
objects, chained on the statement scope. -/
theorem rangeStore_get_new (st : Store) (sc : Nat) (key : GExpr) (val : Option GExpr) :
    (rangeStore st sc key val).get? st.length = some ⟨some sc, rangeObjs key val⟩ :=
  valInsert_get
    (match key with
     | GExpr.eident o2 => insertToScope (pushScope st sc) st.length o2
     | _ => pushScope st sc) st.length val (some sc)
    (match key with
     | GExpr.eident o2 => objsInsert [] o2
     | _ => [])
    (keyInsert_get (pushScope st sc) st.length key (some sc) []
      (pushScope_get_new st sc))

/-- C4: a defining assignment returns a newly opened scope (the old store
length) chained on the enclosing scope and holding exactly the left-hand
identifier objects; no pre-existing scope is touched; and every right-hand
expression is visited at the *enclosing* scope with a store snapshot whose
name resolution from that scope is identical to the original store's — so
in `x := x + 1` the right-hand `x` resolves to an outer `x`, never to the
binding being created. -/
theorem claimC4 (s : SW) (lhs rhs : List GExpr) (sc : Nat)
    (hsc : sc < s.store.length) (hwf : wfStore s.store = true) :
    (walkStmt s (.sassign true lhs rhs) sc).2 = s.store.length ∧
    (walkStmt s (.sassign true lhs rhs) sc).1.store.get? s.store.length =
      some ⟨some sc, identObjs [] lhs⟩ ∧
    (∀ j, j < s.store.length →
      (walkStmt s (.sassign true lhs rhs) sc).1.store.get? j = s.store.get? j) ∧
    (∀ e ∈ rhs, ∃ snap,
      Event.visitExpr snap sc e ∈ (walkStmt s (.sassign true lhs rhs) sc).1.tr ∧
      (∀ j, j < s.store.length → snap.get? j = s.store.get? j) ∧
      ∀ n, Lookup snap sc n = Lookup s.store sc n) := by
  have hlen2 : s.store.length <
      ((⟨pushScope s.store sc,
        s.tr ++ [Event.visitStmt s.store sc (.sassign true lhs rhs)]⟩ : SW)).store.length := by
    show s.store.length < (pushScope s.store sc).length
    rw [pushScope_length]
    omega
  have hsc2 : sc <
      ((⟨pushScope s.store sc,
        s.tr ++ [Event.visitStmt s.store sc (.sassign true lhs rhs)]⟩ : SW)).store.length := by
    show sc < (pushScope s.store sc).length
    rw [pushScope_length]
    omega
  have hE := walkExprList_exts
    ⟨pushScope s.store sc, s.tr ++ [Event.visitStmt s.store sc (.sassign true lhs rhs)]⟩
    rhs sc hsc2
  refine ⟨rfl, ?_, ?_, ?_⟩
  · exact insertIdents_get_eq lhs
      (walkExprList ⟨pushScope s.store sc,
        s.tr ++ [Event.visitStmt s.store sc (.sassign true lhs rhs)]⟩ rhs sc).store
      s.store.length (some sc) []
      ((hE.get s.store.length hlen2).trans (pushScope_get_new s.store sc))
  · intro j hj
    have hne : j ≠ s.store.length := by omega
    exact (insertIdents_get_ne lhs
        (walkExprList ⟨pushScope s.store sc,
          s.tr ++ [Event.visitStmt s.store sc (.sassign true lhs rhs)]⟩ rhs sc).store
        s.store.length j hne).trans
      ((hE.get j (lt_trans hj hlen2)).trans (pushScope_get s.store sc j hj))
  · intro e he
    rcases walkExprList_mem_visit
      ⟨pushScope s.store sc, s.tr ++ [Event.visitStmt s.store sc (.sassign true lhs rhs)]⟩
      rhs sc hsc2 e he with ⟨snap, hmem, hpre⟩
    have hpre2 : ∀ j, j < s.store.length → snap.get? j = s.store.get? j := by
      intro j hj
      exact (hpre j (lt_trans hj hlen2)).trans (pushScope_get s.store sc j hj)
    exact ⟨snap, hmem, hpre2,
      fun n => lookupChainF_agree s.store snap hwf hpre2 (sc + 1) sc hsc n⟩

/-- C4 witness: walking `x := x + 1` in a store whose only scope binds an
outer `x` returns the fresh scope index 1. -/
theorem claimC4_witness :
    0 < exC4St.store.length ∧ wfStore exC4St.store = true ∧
    (walkStmt exC4St (.sassign true exC4Lhs exC4Rhs) 0).2 = exC4St.store.length :=
  ⟨by decide, by decide,
    (claimC4 exC4St exC4Lhs exC4Rhs 0 (by decide) (by decide)).1⟩

/-- C5 counterexample: walking `for i := range ... { i }` from a
one-scope store, the loop body is visited at scope 0 — the *enclosing*
scope — while the key binding `i` sits in the fresh scope 1; resolution of
`"i"` from the body's scope misses the binding the loop created, though
resolution from the fresh scope would find it.  The claim's statement that
the body is walked in a scope in which the key binding is visible fails. -/
theorem claimC5_counterexample :
    (walkStmt exC5St exC5Range 0).1.tr.get? 1 =
      some (Event.visitStmt exC5Snap 0 exC5Body) ∧
    Lookup exC5Snap 0 "i" = none ∧
    Lookup exC5Snap 1 "i" = some exC5Obj :=
  ⟨rfl, rfl, rfl⟩

/-- C5 (amended): a defining range loop pushes a fresh scope (at the old
store length, chained on the statement scope) holding exactly the key/value
identifier objects, and exits it after the body — but the body itself is
visited at the *enclosing* scope, with a store snapshot whose name
resolution from that scope is identical to the original store's: the new
bindings are not visible to the body walk.  The statement returns the
enclosing scope. -/
theorem claimC5 (s : SW) (key : GExpr) (val : Option GExpr) (body : GStmt) (sc : Nat)
    (hsc : sc < s.store.length) :
    (∃ Δ, (walkStmt s (.srange true key val body) sc).1.tr =
        s.tr ++ Event.visitStmt s.store sc (.srange true key val body) ::
          Event.visitStmt (rangeStore s.store sc key val) sc body :: Δ) ∧
    (rangeStore s.store sc key val).get? s.store.length =
      some ⟨some sc, rangeObjs key val⟩ ∧
    (∀ j, j < s.store.length →
      (rangeStore s.store sc key val).get? j = s.store.get? j) ∧
    (wfStore s.store = true →
      ∀ n, Lookup (rangeStore s.store sc key val) sc n = Lookup s.store sc n) ∧
    (walkStmt s (.srange true key val body) sc).2 = sc := by
  have hpre3 : ∀ j, j < s.store.length →
      (rangeStore s.store sc key val).get? j = s.store.get? j := by
    intro j hj
    have hne : j ≠ s.store.length := by omega
    exact (valInsert_get_ne
        (match key with
         | GExpr.eident o2 => insertToScope (pushScope s.store sc) s.store.length o2
         | _ => pushScope s.store sc) s.store.length val j hne).trans
      ((keyInsert_get_ne (pushScope s.store sc) s.store.length key j hne).trans
        (pushScope_get s.store sc j hj))
  have hsc4 : sc <
      ((⟨rangeStore s.store sc key val,
        s.tr ++ [Event.visitStmt s.store sc (.srange true key val body)]⟩ : SW)).store.length := by
    show sc < (rangeStore s.store sc key val).length
    rw [rangeStore_length]
    omega
  have hb := walkStmt_exts
    ⟨rangeStore s.store sc key val,
      s.tr ++ [Event.visitStmt s.store sc (.srange true key val body)]⟩ body sc hsc4
  refine ⟨?_, ?_, hpre3, ?_, rfl⟩
  · rcases hb.2 with ⟨Δ, hΔ⟩
    rcases (extsP_exit
      (walkStmt ⟨rangeStore s.store sc key val,
        s.tr ++ [Event.visitStmt s.store sc (.srange true key val body)]⟩ body sc).1
      s.store.length sc).tr with ⟨Δ2, hΔ2⟩
    refine ⟨Δ ++ Δ2, ?_⟩
    show (exitScopes
      (walkStmt ⟨rangeStore s.store sc key val,
        s.tr ++ [Event.visitStmt s.store sc (.srange true key val body)]⟩ body sc).1
      s.store.length sc).tr =
      s.tr ++ Event.visitStmt s.store sc (.srange true key val body) ::
        Event.visitStmt (rangeStore s.store sc key val) sc body :: (Δ ++ Δ2)
    rw [hΔ2, hΔ]
    simp
  · exact rangeStore_get_new s.store sc key val
  · intro hwf n
    exact lookupChainF_agree s.store (rangeStore s.store sc key val) hwf hpre3
      (sc + 1) sc hsc n

/-- C5 witness: on the concrete loop `for i := range ...`, the fresh scope
(index 1) holds exactly the binding `i` chained on the enclosing scope 0. -/
theorem claimC5_witness :
    0 < exC5St.store.length ∧
    (rangeStore exC5St.store 0 (.eident exC5Obj) none).get? exC5St.store.length =
      some ⟨some 0, rangeObjs (.eident exC5Obj) none⟩ :=
  ⟨by decide, (claimC5 exC5St (.eident exC5Obj) none exC5Body 0 (by decide)).2.1⟩

/-- C6: the walker's binding insertion refuses the blank identifier `_` (of
any kind) and a function object named `init`, and consequently a full file
walk keeps the store clean — no scope ever records such an object, so they
can never be reported unused by the dead-binding pass, which reads scope
contents. -/
theorem claimC6 (st : Store) (i idn : Nat) (k : ObjKind) (s : SW)
    (decls : List GDecl) (fsc : Nat) (hsc : fsc < s.store.length)
    (hclean : cleanStore s.store = true) :
    insertToScope st i ⟨idn, "_", k⟩ = st ∧
    insertToScope st i ⟨idn, "init", ObjKind.fn⟩ = st ∧
    cleanStore (walkFile s decls fsc).store = true :=
  ⟨rfl, rfl, (walkFile_exts s decls fsc hsc).clean hclean⟩

/-- C6 witness: a clean one-scope store stays clean across the walk of a
file with a method declaration. -/
theorem claimC6_witness :
    0 < exC6St.store.length ∧ cleanStore exC6St.store = true ∧
    cleanStore (walkFile exC6St exC6Decls 0).store = true :=
  ⟨by decide, by decide,
    (claimC6 [] 0 7 ObjKind.var exC6St exC6Decls 0 (by decide) (by decide)).2.2⟩

/-- C7 (code bug evidence): on a `must` call with zero arguments,
`VisitExpr` prunes (returns the nil visitor), leaves the run alive, adds no
patch — but the diagnostic it prints is the raw `fmt.Println` of the format
string followed by the position operands, not the `file:line:column:`
prefixed message; and the `AssignStmt` branch of `VisitStmt` instruments a
two-argument `must` call without any argument-count check or report at
all. -/
theorem claimC7 :
    seVisitExpr exC7File (fun _ => false) true 30 exC7State exC7BadCall =
      some (exC7State,
        ⟨[printlnRender
          ["%s:%d:%d: \x27must\x27 builtin must be called with exactly one argument",
           "f.go", "3", "7"]], true⟩) ∧
    printlnRender
      ["%s:%d:%d: \x27must\x27 builtin must be called with exactly one argument",
       "f.go", "3", "7"] =
      "%s:%d:%d: \x27must\x27 builtin must be called with exactly one argument f.go 3 7" ∧
    "%s:%d:%d: \x27must\x27 builtin must be called with exactly one argument f.go 3 7" ≠
      posRender ⟨"f.go", 3, 7⟩ ++
        ": \x27must\x27 builtin must be called with exactly one argument" ∧
    seVisitStmt exC7File (fun _ => false) true exC7State exC7Assign =
      some (⟨[patchInsert 35 ", assignerr_0 ", ⟨40, 44, ""⟩,
              patchInsert 70 "; if assignerr_0 != nil \x7b panic(assignerr_0) \x7d;"],
             1, ""⟩,
            ⟨[], true⟩) := by
  have ht : tempVar (fun _ : String => false) "assignerr_" 0 = some ("assignerr_0", 1) :=
    tempVar_free (fun _ => false) "assignerr_" 0 (by omega) rfl
  refine ⟨rfl, by decide, by decide, ?_⟩
  show (match tempVar (fun _ : String => false) "assignerr_" 0 with
    | none => (none : Option (SEState × SEOut))
    | some tv =>
      match seVisitArgsF exC7File (fun _ : String => false) true 30
          (⟨exC7State.patches ++
            [patchInsert 35 (", " ++ tv.1 ++ " "),
             (⟨40, 44, ""⟩ : GoPatch),
             patchInsert 70
               ("; if " ++ tv.1 ++ " != nil " ++
                 "\x7b panic(" ++ tv.1 ++ ") \x7d;")], tv.2, exC7State.initTxt⟩ : SEState)
          [SEExpr.other, SEExpr.other] with
      | none => none
      | some r => some (r.1, (⟨r.2, true⟩ : SEOut))) =
    some ((⟨[patchInsert 35 ", assignerr_0 ", (⟨40, 44, ""⟩ : GoPatch),
            patchInsert 70 "; if assignerr_0 != nil \x7b panic(assignerr_0) \x7d;"],
           1, ""⟩ : SEState),
          (⟨[], true⟩ : SEOut))
  rw [ht]
  rfl
